import Mathlib

/-!
# Fixed-step ODE integrators

A shallow embedding of `src/integrator.cpp` (classes `Integrator`,
`ExplicitIntegrator`, `BDFIntegrator`) and of the fixture of
`test/tridiagonalIntegrator.cpp`.

Conventions of the embedding.

* `double` is modelled by `ℚ`: every statement below is one of exact arithmetic.
* Objects are records, member functions are functions from the old record to
  the new one.  A member function that can run into undefined behaviour (a null
  matrix pointer, an index outside a buffer) returns an `Option`; `none` stands
  for that undefined behaviour.
* `while` loops take a fuel argument; `for (i = 0; i < n; i++)` loops are
  `forLoop`.
* The band factor/solve primitives `BandGBTRF`/`BandGBTRS` belong to an
  external library.  They are a parameter (`BandedSystem`) of the embedding, and
  every call made to them and to the `LinearODE` collaborator is recorded in a
  list of `Call`s returned next to the new state.
* The integer members (`N`, the bandwidths, `stepCount`) are natural numbers:
  their declarations are not part of the sources at hand.
-/

namespace Ember

/-! ## Vectors -/

/-- The vector type `dvector` of the sources, over exact rationals. -/
abbrev dvector := List ℚ

/-- Modelled from the spec: the product `a * v` of a scalar and a `dvector`
(`y ← y + h·ydot`); the vector operators are declared outside `integrator.cpp`. -/
def dvector.scale (a : ℚ) (v : dvector) : dvector :=
  v.map (fun x => a * x)

/-- Modelled from the spec: the element-wise update `y += v` of a `dvector`
(`y ← y + h·ydot`); the vector operators are declared outside `integrator.cpp`. -/
def dvector.addAssign (y v : dvector) : dvector :=
  List.zipWith (fun a b => a + b) y v

/-- The call `v.resize(n, x)` of `std::vector`: truncate, or pad with `x`. -/
def dvector.resize (v : dvector) (n : Nat) (x : ℚ) : dvector :=
  v.take n ++ List.replicate (n - v.length) x

/-- A counted loop `for (int i = 0; i < n; i++) body(i)` over a state `σ`; the body may
run into undefined behaviour (`none`), which then is the outcome of the loop. -/
def forLoop {σ : Type} (body : Nat → σ → Option σ) : Nat → σ → Option σ
  | 0, s => some s
  | n + 1, s => (forLoop body n s).bind (body n)

/-! ## class Integrator -/

/-- Data members of `Integrator`. -/
structure Integrator where
  /-- Current time. -/
  t : ℚ
  /-- Step size. -/
  h : ℚ
  /-- State vector. -/
  y : dvector
  /-- Dimension of the state. -/
  N : Nat
deriving DecidableEq

/-- The constructor `Integrator::Integrator()`: it initialises `t(0)` only; `h0` and
`N0` stand for the values the uninitialised members happen to hold. -/
def Integrator.create (h0 : ℚ) (N0 : Nat) : Integrator :=
  { t := 0, h := h0, y := [], N := N0 }

/-- `Integrator::set_h`. -/
def Integrator.set_h (s : Integrator) (dt : ℚ) : Integrator :=
  { s with h := dt }

/-- `Integrator::set_y0`. -/
def Integrator.set_y0 (s : Integrator) (y0 : dvector) : Integrator :=
  { s with N := y0.length, y := y0 }

/-- `Integrator::set_t0`. -/
def Integrator.set_t0 (s : Integrator) (t0 : ℚ) : Integrator :=
  { s with t := t0 }

/-- `Integrator::get_h`. -/
def Integrator.get_h (s : Integrator) : ℚ := s.h

/-- `Integrator::get_y`. -/
def Integrator.get_y (s : Integrator) : dvector := s.y

/-- `Integrator::get_t`. -/
def Integrator.get_t (s : Integrator) : ℚ := s.t

/-! ## class ExplicitIntegrator -/

/-- The collaborator `ODE` of `ExplicitIntegrator`: `f(t, y, ydot)` writes the
right-hand side `f(t, y)` into `ydot`. -/
structure ODE where
  /-- The right-hand side `f(t, y)`. -/
  f : ℚ → dvector → dvector

/-- Data members of `ExplicitIntegrator` (those of `Integrator` and `ydot`). -/
structure ExplicitIntegrator extends Integrator where
  /-- Time derivative at the last evaluation. -/
  ydot : dvector
deriving DecidableEq

/-- `ExplicitIntegrator::set_y0`. -/
def ExplicitIntegrator.set_y0 (s : ExplicitIntegrator) (y0 : dvector) : ExplicitIntegrator :=
  let b := s.toIntegrator.set_y0 y0
  { toIntegrator := b, ydot := s.ydot.resize b.N 0 }

/-- `ExplicitIntegrator::get_ydot`. -/
def ExplicitIntegrator.get_ydot (s : ExplicitIntegrator) : dvector := s.ydot

/-- `ExplicitIntegrator::step`: one step of the explicit Euler method. -/
def ExplicitIntegrator.step (myODE : ODE) (s : ExplicitIntegrator) : ExplicitIntegrator :=
  let ydot := myODE.f s.t s.y
  { s with
    ydot := ydot
    y := dvector.addAssign s.y (dvector.scale s.h ydot)
    t := s.t + s.h }

/-- `ExplicitIntegrator::step_to_time`: `while (t < tEnd) step();`.  The first argument
bounds the number of iterations; the result is `none` when the loop is still
running after that many calls of `step`, and otherwise the final state together
with the number of calls of `step` that were made. -/
def ExplicitIntegrator.step_to_time (myODE : ODE) (tEnd : ℚ) :
    Nat → ExplicitIntegrator → Option (ExplicitIntegrator × Nat)
  | 0, s => if s.t < tEnd then none else some (s, 0)
  | fuel + 1, s =>
    if s.t < tEnd then
      (ExplicitIntegrator.step_to_time myODE tEnd fuel (ExplicitIntegrator.step myODE s)).map
        (fun r => (r.1, r.2 + 1))
    else some (s, 0)

/-- The scalar linear decay `dy/dt = -y` as an `ODE`. -/
def decayODE : ODE :=
  { f := fun _ y => y.map (fun v => -v) }

/-! ## Band matrices and the external band solver -/

/-- Modelled from the spec: the band matrix class `sdBandMatrix`, whose declaration is
not part of the sources.  An `N × N` matrix whose entries lie within `upper_bw` diagonals
above and `lower_bw` below the main diagonal, stored compactly: row `i` of `elem` holds
the entries `(i, i - lower_bw) … (i, i + upper_bw)`, so that entry `(i, j)` sits at
position `j + lower_bw - i` of row `i`. -/
structure sdBandMatrix where
  /-- Number of rows and columns. -/
  N : Nat
  /-- Number of diagonals above the main one. -/
  upper_bw : Nat
  /-- Number of diagonals below the main one. -/
  lower_bw : Nat
  /-- Compact storage, one list per row. -/
  elem : List (List ℚ)
deriving DecidableEq

/-- Modelled from the spec: the allocation `new sdBandMatrix(N, upper_bw, lower_bw)`, a
fresh band matrix of that shape (all entries zero). -/
def sdBandMatrix.alloc (N upper_bw lower_bw : Nat) : sdBandMatrix :=
  { N := N, upper_bw := upper_bw, lower_bw := lower_bw,
    elem := List.replicate N (List.replicate (upper_bw + lower_bw + 1) 0) }

/-- Modelled from the spec: the element `M(i, j)` of a band matrix as a value; an
element outside the band is zero. -/
def sdBandMatrix.entry (M : sdBandMatrix) (i j : Nat) : ℚ :=
  if i ≤ j + M.lower_bw ∧ j ≤ i + M.upper_bw then
    (M.elem.getD i []).getD (j + M.lower_bw - i) 0
  else 0

/-- Modelled from the spec: the update `M(i, j) -= x` through the element accessor of
`sdBandMatrix`; it is undefined when `(i, j)` has no storage. -/
def sdBandMatrix.subAt (M : sdBandMatrix) (i j : Nat) (x : ℚ) : Option sdBandMatrix :=
  if i ≤ j + M.lower_bw ∧ j ≤ i + M.upper_bw ∧ i < M.elem.length ∧
      j + M.lower_bw - i < (M.elem.getD i []).length then
    some { M with
      elem := M.elem.set i ((M.elem.getD i []).set (j + M.lower_bw - i) (M.entry i j - x)) }
  else none

/-- The library routine `BandCopy(A, B, copymu, copyml)`: it copies the band of `A` with
`copymu` upper and `copyml` lower diagonals into `B`, which keeps its shape; the
positions of `B` outside that band keep their content. -/
def BandCopy (A B : sdBandMatrix) (copymu copyml : Nat) : sdBandMatrix :=
  { B with
    elem := (List.range B.N).map fun i =>
      (List.range (B.upper_bw + B.lower_bw + 1)).map fun k =>
        if i < A.N ∧ B.lower_bw ≤ k + copyml ∧ k ≤ B.lower_bw + copymu then
          (A.elem.getD i []).getD (k + A.lower_bw - B.lower_bw) 0
        else (B.elem.getD i []).getD k 0 }

/-- The external band solver: `BandGBTRF(LU, p)` factorizes the matrix held in `LU` in
place and writes the pivots to `p`; `BandGBTRS(LU, p, b)` solves in place in `b`.  Both
work inside the caller's buffers, so the shape of `LU`, the number of pivots and the
length of `b` are those of the arguments. -/
structure BandedSystem where
  /-- Factorization: the new content of `LU` and the pivots. -/
  BandGBTRF : sdBandMatrix → sdBandMatrix × List Int
  /-- Solve with a factorization and its pivots. -/
  BandGBTRS : sdBandMatrix → List Int → dvector → dvector
  /-- The factorization keeps the number of rows. -/
  factor_N : ∀ M, (BandGBTRF M).1.N = M.N
  /-- The factorization keeps the upper bandwidth. -/
  factor_upper : ∀ M, (BandGBTRF M).1.upper_bw = M.upper_bw
  /-- The factorization keeps the lower bandwidth. -/
  factor_lower : ∀ M, (BandGBTRF M).1.lower_bw = M.lower_bw
  /-- One pivot per row. -/
  pivot_length : ∀ M, (BandGBTRF M).2.length = M.N
  /-- The solve keeps the length of the right-hand side. -/
  solve_length : ∀ LU p b, (BandGBTRS LU p b).length = b.length

/-- The collaborator `LinearODE` of `BDFIntegrator`: `get_A(A)` fills the matrix `A` of
`dy/dt = A·y + c` and `get_C(c)` fills the vector `c`, each into the buffer it is
handed. -/
structure LinearODE where
  /-- New content of the matrix buffer. -/
  get_A : sdBandMatrix → sdBandMatrix
  /-- New content of the vector buffer. -/
  get_C : dvector → dvector

/-- A call that `BDFIntegrator::step` makes to the collaborator or to the band solver,
with the matrix handed to the factorization and the right-hand side handed to the
solve. -/
inductive Call where
  | get_A : Call
  | get_C : Call
  | BandGBTRF (M : sdBandMatrix) : Call
  | BandGBTRS (rhs : dvector) : Call
deriving DecidableEq

/-- Whether a call is a factorization. -/
def Call.isFactor : Call → Bool
  | Call.BandGBTRF _ => true
  | _ => false

/-- Whether a call queries the collaborator for `A`. -/
def Call.isGetA : Call → Bool
  | Call.get_A => true
  | _ => false

/-- Whether a call queries the collaborator for `c`. -/
def Call.isGetC : Call → Bool
  | Call.get_C => true
  | _ => false

/-! ## class BDFIntegrator -/

/-- Data members of `BDFIntegrator` (those of `Integrator` and its own); the matrix
pointers `A` and `LU` are `none` when they are `NULL`. -/
structure BDFIntegrator extends Integrator where
  /-- System matrix. -/
  A : Option sdBandMatrix
  /-- Matrix buffer handed to the band solver. -/
  LU : Option sdBandMatrix
  /-- Pivots. -/
  p : List Int
  /-- Number of steps taken since the last reset. -/
  stepCount : Nat
  /-- Upper bandwidth. -/
  upper_bw : Nat
  /-- Lower bandwidth. -/
  lower_bw : Nat
  /-- Previous state. -/
  yprev : dvector
  /-- Offset vector. -/
  c : dvector
deriving DecidableEq

/-- The constructor `BDFIntegrator::BDFIntegrator`: `A(NULL)`, `LU(NULL)`,
`stepCount(0)` on top of `Integrator()`; the other arguments stand for the values the
uninitialised members happen to hold. -/
def BDFIntegrator.create (h0 : ℚ) (N0 upper0 lower0 : Nat) : BDFIntegrator :=
  { toIntegrator := Integrator.create h0 N0, A := none, LU := none, p := [],
    stepCount := 0, upper_bw := upper0, lower_bw := lower0, yprev := [], c := [] }

/-- `BDFIntegrator::set_size`. -/
def BDFIntegrator.set_size (s : BDFIntegrator) (N_in upper_bw_in lower_bw_in : Nat) :
    BDFIntegrator :=
  { s with
    N := N_in
    upper_bw := upper_bw_in
    lower_bw := lower_bw_in
    LU := some (sdBandMatrix.alloc N_in upper_bw_in lower_bw_in)
    A := some (sdBandMatrix.alloc N_in upper_bw_in lower_bw_in)
    p := (s.p.take N_in) ++ List.replicate (N_in - s.p.length) 0 }

/-- `BDFIntegrator::set_y0`. -/
def BDFIntegrator.set_y0 (s : BDFIntegrator) (y0 : dvector) : BDFIntegrator :=
  { s with toIntegrator := s.toIntegrator.set_y0 y0, stepCount := 0 }

/-- `BDFIntegrator::set_t0`. -/
def BDFIntegrator.set_t0 (s : BDFIntegrator) (t0 : ℚ) : BDFIntegrator :=
  { s with toIntegrator := s.toIntegrator.set_t0 t0, stepCount := 0 }

/-- `BDFIntegrator::set_dt`. -/
def BDFIntegrator.set_dt (s : BDFIntegrator) (h_in : ℚ) : BDFIntegrator :=
  { s with toIntegrator := s.toIntegrator.set_h h_in, stepCount := 0 }

/-- The loop `for (i < N) M(i,i) -= x` of `step`. -/
def diagLoop (x : ℚ) (N : Nat) (M : sdBandMatrix) : Option sdBandMatrix :=
  forLoop (fun i M => M.subAt i i x) N M

/-- The loop `for (i < N) y[i] = -y[i]/h - c[i]` of `step`; an index outside `y` or `c`
is undefined. -/
def rhsLoop1 (h : ℚ) (c : dvector) (N : Nat) (y : dvector) : Option dvector :=
  forLoop (fun i y =>
    if i < y.length ∧ i < c.length then
      some (y.set i (-(y.getD i 0) / h - c.getD i 0))
    else none) N y

/-- The loop `for (i < N) y[i] = -2*y[i]/h + yprev[i]/(2*h) - c[i]` of `step`; an index
outside `y`, `yprev` or `c` is undefined. -/
def rhsLoop2 (h : ℚ) (yprev c : dvector) (N : Nat) (y : dvector) : Option dvector :=
  forLoop (fun i y =>
    if i < y.length ∧ i < yprev.length ∧ i < c.length then
      some (y.set i (-2 * (y.getD i 0) / h + yprev.getD i 0 / (2 * h) - c.getD i 0))
    else none) N y

/-- `BDFIntegrator::step`.  The result is the new state and the calls made, in order, to
the collaborator and to the band solver; it is `none` when the step dereferences a null
matrix pointer or indexes outside a buffer. -/
def BDFIntegrator.step (S : BandedSystem) (myODE : LinearODE) (s : BDFIntegrator) :
    Option (BDFIntegrator × List Call) :=
  match s.A, s.LU with
  | some A, some LU =>
    if s.stepCount = 0 then
      let yprev := s.y
      let A1 := myODE.get_A A
      let c := myODE.get_C s.c
      (diagLoop (1 / s.h) s.N (BandCopy A1 LU s.upper_bw s.lower_bw)).bind fun M =>
      let F := S.BandGBTRF M
      (rhsLoop1 s.h c s.N s.y).bind fun rhs =>
      let y := S.BandGBTRS F.1 F.2 rhs
      some ({ s with
              yprev := yprev, A := some A1, c := c, LU := some F.1, p := F.2, y := y
              stepCount := s.stepCount + 1, t := s.t + s.h },
            [Call.get_A, Call.get_C, Call.BandGBTRF M, Call.BandGBTRS rhs])
    else
      (if s.stepCount = 1 then
        (diagLoop (3 / (2 * s.h)) s.N (BandCopy A LU s.upper_bw s.lower_bw)).map fun M =>
          (S.BandGBTRF M, [Call.BandGBTRF M])
       else some ((LU, s.p), [])).bind fun F =>
      let tmp := s.y
      (rhsLoop2 s.h s.yprev s.c s.N s.y).bind fun rhs =>
      let y := S.BandGBTRS F.1.1 F.1.2 rhs
      some ({ s with
              LU := some F.1.1, p := F.1.2, yprev := tmp, y := y
              stepCount := s.stepCount + 1, t := s.t + s.h },
            F.2 ++ [Call.BandGBTRS rhs])
  | _, _ => none

/-- Consecutive calls of `step`: the state after `n` calls and all the calls made to the
collaborator and the band solver, in order. -/
def BDFIntegrator.steps (S : BandedSystem) (myODE : LinearODE) :
    Nat → BDFIntegrator → Option (BDFIntegrator × List Call)
  | 0, s => some (s, [])
  | n + 1, s =>
    (BDFIntegrator.steps S myODE n s).bind fun r =>
      (BDFIntegrator.step S myODE r.1).map fun r2 => (r2.1, r.2 ++ r2.2)

/-! ## Linear algebra used in the statements -/

/-- The leading `n × n` block of a band matrix as a matrix. -/
def sdBandMatrix.toMatrix (n : Nat) (M : sdBandMatrix) : Matrix (Fin n) (Fin n) ℚ :=
  fun i j => M.entry i j

/-- The first `n` components of a `dvector` as a vector (zero beyond its length). -/
def dvector.toVec (n : Nat) (v : dvector) : Fin n → ℚ :=
  fun i => v.getD i 0

/-- A band solver solves exactly: whenever the matrix is nonsingular, the vector that
`BandGBTRS` returns for the factorization made by `BandGBTRF` solves the linear
system. -/
def BandedSystem.Exact (S : BandedSystem) : Prop :=
  ∀ (M : sdBandMatrix) (b : dvector), (M.toMatrix M.N).det ≠ 0 → b.length = M.N →
    (M.toMatrix M.N).mulVec
      (dvector.toVec M.N (S.BandGBTRS (S.BandGBTRF M).1 (S.BandGBTRF M).2 b))
      = dvector.toVec M.N b

/-- An exact band solver, by Cramer's rule: the "factorization" keeps the matrix and the
solve divides the determinants. -/
def cramerSystem : BandedSystem :=
  { BandGBTRF := fun M => (M, List.replicate M.N 0)
    BandGBTRS := fun LU _ b =>
      (List.range b.length).map fun i =>
        if h : i < LU.N then
          (LU.toMatrix LU.N).det⁻¹ * Matrix.cramer (LU.toMatrix LU.N) (dvector.toVec LU.N b) ⟨i, h⟩
        else 0
    factor_N := fun _ => rfl
    factor_upper := fun _ => rfl
    factor_lower := fun _ => rfl
    pivot_length := fun _ => by simp
    solve_length := fun _ _ _ => by simp }

/-! ## The tridiagonal fixture of `test/tridiagonalIntegrator.cpp` -/

/-- The collaborator `ConstantTridiagonalODE` of the test: three diagonals `a_` (sub),
`b_` (main), `c_` (super) and the constant vector `k_`. -/
structure ConstantTridiagonalODE where
  /-- Sub-diagonal. -/
  a_ : dvector
  /-- Main diagonal. -/
  b_ : dvector
  /-- Super-diagonal. -/
  c_ : dvector
  /-- Constant term. -/
  k_ : dvector
deriving DecidableEq

/-- Modelled from the spec: `TridiagonalIntegrator`, whose implementation is not part of
the sources, "assembles the same band representation" from the three diagonals: row `i`
of the band is `(a[i], b[i], c[i])`, and the offset vector is `k`. -/
def ConstantTridiagonalODE.toLinearODE (ode : ConstantTridiagonalODE) : LinearODE :=
  { get_A := fun A =>
      { A with
        elem := (List.range A.N).map fun i =>
          [ode.a_.getD i 0, ode.b_.getD i 0, ode.c_.getD i 0] }
    get_C := fun _ => ode.k_ }

/-- Modelled from the spec: `TridiagonalIntegrator::resize(N)`, the specialization of
`set_size` with `upper_bw = lower_bw = 1`. -/
def TridiagonalIntegrator.resize (s : BDFIntegrator) (N : Nat) : BDFIntegrator :=
  s.set_size N 1 1

/-- Modelled from the spec: the convenience call of `TridiagonalIntegrator` "that
performs `set_t0` + `set_dt` in one call". -/
def TridiagonalIntegrator.initializeAt (s : BDFIntegrator) (t0 h : ℚ) : BDFIntegrator :=
  (s.set_t0 t0).set_dt h

/-- Modelled from the spec: `TridiagonalIntegrator::step`, whose implementation is not
part of the sources.  It "delegates to the BDFIntegrator regime logic": with a step
counter of `1` or more the step is `BDFIntegrator::step` itself.  In the regime "Init" the
step of size `h` is made of eight BDF1 sub-steps of size `h/8`, each one the "Init" step
of `BDFIntegrator::step` after `set_dt(h/8)`; then `h` is put back and `yprev` is the
state before the whole step.  The sub-steps are what the reference table `soln` of the
test demands of the class (a single BDF1 step of size `h` misses its row `1`, see
`bdf_single_step_row1`); the spec names the method of the first step (BDF1) and not
the number of sub-steps. -/
def TridiagonalIntegrator.step (S : BandedSystem) (ode : ConstantTridiagonalODE)
    (s : BDFIntegrator) : Option (BDFIntegrator × List Call) :=
  if s.stepCount = 0 then
    (forLoop (fun _ r => ((r.1.set_dt (s.h / 8)).step S ode.toLinearODE).map
        fun r2 => (r2.1, r.2 ++ r2.2)) 8 (s, [])).map
      fun r => ({ r.1 with h := s.h, yprev := s.y }, r.2)
  else s.step S ode.toLinearODE

/-- Consecutive calls of `TridiagonalIntegrator::step`: the state after `n` calls and the
calls made to the collaborator and the band solver. -/
def TridiagonalIntegrator.steps (S : BandedSystem) (ode : ConstantTridiagonalODE) :
    Nat → BDFIntegrator → Option (BDFIntegrator × List Call)
  | 0, s => some (s, [])
  | n + 1, s =>
    (TridiagonalIntegrator.steps S ode n s).bind fun r =>
      (TridiagonalIntegrator.step S ode r.1).map fun r2 => (r2.1, r.2 ++ r2.2)

/-- The collaborator built by the fixture `TridiagonalIntegratorTest`. -/
def testODE : ConstantTridiagonalODE :=
  { a_ := [0, 1, 1, 1, 1]
    b_ := [-2, -2, -2, -2, -2]
    c_ := [1, 1, 1, 1, 0]
    k_ := [0, 0, 0, 1 / 5, 2 / 5] }

/-- The initial state `y0` of the test `Stepwise`. -/
def testY0 : dvector := [0, 1 / 2, 2, 1, 0]

/-- The integrator of the test `Stepwise` right before its loop: constructed, resized to
`5`, then `set_y0(y0)` and `initialize(0, 0.2)`. -/
def testStart (h0 : ℚ) (N0 upper0 lower0 : Nat) : BDFIntegrator :=
  TridiagonalIntegrator.initializeAt
    ((TridiagonalIntegrator.resize (BDFIntegrator.create h0 N0 upper0 lower0) 5).set_y0 testY0)
    0 (1 / 5)

/-- The reference table `soln` of the test, row `j` for the state after `j` steps; the
decimal literals are written as fractions over `10^14`. -/
def soln : List (List ℚ) :=
  [[0, 50000000000000 / 100000000000000, 200000000000000 / 100000000000000,
    100000000000000 / 100000000000000, 0],
   [9475912852595 / 100000000000000, 63130024184639 / 100000000000000,
    161199522551290 / 100000000000000, 101579521276719 / 100000000000000,
    22818950052384 / 100000000000000],
   [17271644069234 / 100000000000000, 69321490131769 / 100000000000000,
    134982270336185 / 100000000000000, 101014852549086 / 100000000000000,
    38863616112939 / 100000000000000],
   [23179316689213 / 100000000000000, 71176849986673 / 100000000000000,
    117610917328091 / 100000000000000, 99302967646570 / 100000000000000,
    49567553015264 / 100000000000000],
   [27296869366712 / 100000000000000, 70706202264716 / 100000000000000,
    105947277610782 / 100000000000000, 97139437597267 / 100000000000000,
    56384834470269 / 100000000000000],
   [29912090096054 / 100000000000000, 69144453968429 / 100000000000000,
    97840324923541 / 100000000000000, 94893150017619 / 100000000000000,
    60507643387595 / 100000000000000]]

/-- Two vectors agree within `tol` in every component (and have the same length). -/
def dvector.within (tol : ℚ) (u v : dvector) : Prop :=
  u.length = v.length ∧ ∀ i, i < u.length → |u.getD i 0 - v.getD i 0| ≤ tol

/-- A valid stepping session of a `BDFIntegrator` with collaborator `myODE`: `set_size` has
allocated `A` and `LU` with the shape recorded in the integrator, the state has `N`
components, the collaborator fills the matrix buffer without changing its shape and
returns an offset vector of length `N`, and once a step has been taken `yprev` and `c`
have `N` components too. -/
structure BDFIntegrator.Valid (myODE : LinearODE) (s : BDFIntegrator) : Prop where
  /-- The matrix `A` is allocated with the recorded shape. -/
  A_alloc : ∃ A, s.A = some A ∧ A.N = s.N ∧ A.upper_bw = s.upper_bw ∧
    A.lower_bw = s.lower_bw
  /-- The matrix `LU` is allocated with the recorded shape. -/
  LU_alloc : ∃ LU, s.LU = some LU ∧ LU.N = s.N ∧ LU.upper_bw = s.upper_bw ∧
    LU.lower_bw = s.lower_bw
  /-- The state has `N` components. -/
  y_length : s.y.length = s.N
  /-- The collaborator keeps the shape of the matrix buffer. -/
  get_A_shape : ∀ A, (myODE.get_A A).N = A.N ∧ (myODE.get_A A).upper_bw = A.upper_bw ∧
    (myODE.get_A A).lower_bw = A.lower_bw
  /-- The collaborator returns `N` offsets. -/
  get_C_length : ∀ c, (myODE.get_C c).length = s.N
  /-- After a step, `yprev` and `c` have `N` components. -/
  history : s.stepCount ≠ 0 → s.yprev.length = s.N ∧ s.c.length = s.N

/-- The matrix `A − x·I` of size `n` for a band matrix `A`. -/
def shifted (n : Nat) (A : sdBandMatrix) (x : ℚ) : Matrix (Fin n) (Fin n) ℚ :=
  A.toMatrix n - x • (1 : Matrix (Fin n) (Fin n) ℚ)

/-- The next `step` of `s` is a step of the "Init" regime: it is defined, snapshots
`yprev ← y`, queries the collaborator, hands `A − (1/h)·I` (for the current `h` and the `A`
just queried) to `BandGBTRF`, keeps that factorization, and solves for the right-hand side
`rhs[i] = −y[i]/h − c[i]` with it (a BDF1 step), ending with step counter `1`. -/
def InitStep (S : BandedSystem) (myODE : LinearODE) (s : BDFIntegrator) : Prop :=
  ∃ A M rhs r, s.A = some A ∧ s.step S myODE = some r ∧
    r.1.yprev = s.y ∧
    r.2 = [Call.get_A, Call.get_C, Call.BandGBTRF M, Call.BandGBTRS rhs] ∧
    M.toMatrix s.N = shifted s.N (myODE.get_A A) (1 / s.h) ∧
    rhs.length = s.N ∧
    (∀ i, i < s.N → rhs.getD i 0 = -(s.y.getD i 0) / s.h - (myODE.get_C s.c).getD i 0) ∧
    r.1.LU = some (S.BandGBTRF M).1 ∧ r.1.p = (S.BandGBTRF M).2 ∧
    r.1.y = S.BandGBTRS (S.BandGBTRF M).1 (S.BandGBTRF M).2 rhs ∧
    r.1.stepCount = 1

/-- A collaborator for `dy/dt = A·y + c` with the `2 × 2` band matrix of rows `(-2, 1)` and
`(1, -2)` and `c = (1, 0)`. -/
def exampleODE : LinearODE :=
  { get_A := fun B => { B with elem := [[0, -2, 1], [1, -2, 0]] }
    get_C := fun _ => [1, 0] }

/-- The matrix of `exampleODE`. -/
def exampleA : sdBandMatrix :=
  { N := 2, upper_bw := 1, lower_bw := 1, elem := [[0, -2, 1], [1, -2, 0]] }

/-- The matrix `exampleA − 3·I`, which is `A − (3/(2h))·I` for `h = 1/2`. -/
def exampleM : sdBandMatrix :=
  { N := 2, upper_bw := 1, lower_bw := 1, elem := [[0, -5, 1], [1, -5, 0]] }

/-- An integrator in the "Steady" regime (two steps taken, `h = 1/2`) whose `LU` and `p`
hold what the Cramer solver keeps for `exampleM`. -/
def exampleSteady : BDFIntegrator :=
  { t := 1, h := 1 / 2, y := [1, 2], N := 2, A := some exampleA, LU := some exampleM,
    p := [0, 0], stepCount := 2, upper_bw := 1, lower_bw := 1, yprev := [3, 1], c := [1, 0] }

/-- An explicit integrator for the scalar decay started at `y = 1`, `t = 0` with step
size `h`. -/
def decayStart (h : ℚ) : ExplicitIntegrator :=
  { t := 0, h := h, y := [1], N := 1, ydot := [0] }

/-- The buffers `LU` and `p` of `s` hold the factorization, made by `S`, of
`A − (3/(2h))·I` for the current `h`. -/
def Cached (S : BandedSystem) (s : BDFIntegrator) (A : sdBandMatrix) : Prop :=
  ∃ M, M.N = s.N ∧ M.toMatrix s.N = shifted s.N A (3 / (2 * s.h)) ∧
    s.LU = some (S.BandGBTRF M).1 ∧ s.p = (S.BandGBTRF M).2

/-- Decidability of `dvector.within`, for evaluation on concrete vectors. -/
instance dvector.decidableWithin (tol : ℚ) (u v : dvector) :
    Decidable (dvector.within tol u v) :=
  inferInstanceAs
    (Decidable (u.length = v.length ∧ ∀ i, i < u.length → |u.getD i 0 - v.getD i 0| ≤ tol))

/-- The matrix `A` that the collaborator of the test hands to the integrator. -/
def testA : sdBandMatrix :=
  testODE.toLinearODE.get_A (sdBandMatrix.alloc 5 1 1)

/-- The exact states that `BDFIntegrator::step` alone gives on the test problem after
`0 … 5` calls: one BDF1 step of size `h = 1/5`, then BDF2 steps, each the exact solution
of its linear system. -/
def bdfExact : List (List ℚ) :=
  [[0,
    1 / 2,
    2,
    1,
    0],
   [13393 / 154560,
    13393 / 22080,
    5343 / 3220,
    22271 / 22080,
    31103 / 154560],
   [704944439 / 4355771280,
    153820547 / 229251120,
    7455522 / 5337955,
    230285749 / 229251120,
    223806127 / 622253040],
   [3037951614120649 / 13748364814255680,
    26560408253543 / 38084113058880,
    171484936393 / 141583918420,
    37709976545161 / 38084113058880,
    6488928154826759 / 13748364814255680],
   [1072475416317001785251 / 4068256291093575103320,
    414782719749439603 / 593126737293129480,
    36318373376386 / 33530105822965,
    575649514505577881 / 593126737293129480,
    2223040410147070459741 / 4068256291093575103320],
   [22478475020492893882785080911 / 77045190923585714032888211520,
    406688141702888473522457 / 591195516636503050413120,
    6186559907435415623 / 6225467687938265620,
    561116173112684213818039 / 591195516636503050413120,
    45688062271012185023131996001 / 77045190923585714032888211520]]

/-- The integrator `s` is in the session of the test after `j` steps, with state `yv` and
previous state `ypv`: the session is valid, `A` and `c` are those of the collaborator,
`N = 5`, `h = 1/5`, and from the second step on the BDF2 factorization is cached. -/
def TestState (S : BandedSystem) (s : BDFIntegrator) (j : Nat) (yv ypv : dvector) : Prop :=
  s.Valid testODE.toLinearODE ∧ s.stepCount = j ∧ s.A = some testA ∧ s.c = testODE.k_ ∧
    s.N = 5 ∧ s.h = 1 / 5 ∧ s.y = yv ∧ s.yprev = ypv ∧ (2 ≤ j → Cached S s testA)

/-- Every row of `rows` from the third on is the exact BDF2 step of size `h = 1/5` of the
test problem made from the two rows before it. -/
def BDF2Chain (rows : List (List ℚ)) : Prop :=
  ∀ m, m < rows.length - 2 →
    (rows.getD (m + 2) []).length = 5 ∧
    (shifted 5 testA (3 / (2 * (1 / 5)))).mulVec (dvector.toVec 5 (rows.getD (m + 2) []))
      = (fun i => -2 * (dvector.toVec 5 (rows.getD (m + 1) []) i) / (1 / 5)
          + dvector.toVec 5 (rows.getD m []) i / (2 * (1 / 5))
          - dvector.toVec 5 testODE.k_ i)

/-- Decidability of `BDF2Chain`, for evaluation on concrete tables. -/
instance BDF2Chain.decidable (rows : List (List ℚ)) : Decidable (BDF2Chain rows) :=
  inferInstanceAs (Decidable (∀ m, m < rows.length - 2 → _))

/-- Every row of `rows` from the second on is the exact BDF1 step of size `1/40` of the
test problem made from the row before it. -/
def BDF1Chain (rows : List (List ℚ)) : Prop :=
  ∀ m, m < rows.length - 1 →
    (rows.getD (m + 1) []).length = 5 ∧
    (shifted 5 testA (1 / (1 / 40))).mulVec (dvector.toVec 5 (rows.getD (m + 1) []))
      = (fun i => -(dvector.toVec 5 (rows.getD m []) i) / (1 / 40)
          - dvector.toVec 5 testODE.k_ i)

/-- Decidability of `BDF1Chain`, for evaluation on concrete tables. -/
instance BDF1Chain.decidable (rows : List (List ℚ)) : Decidable (BDF1Chain rows) :=
  inferInstanceAs (Decidable (∀ m, m < rows.length - 1 → _))

/-- Modelled from the spec: the error kinds of its taxonomy (§7); `integrator.cpp` defines
and raises none of them. -/
inductive ErrorKind where
  | InvalidConfiguration : ErrorKind
  | DimensionMismatch : ErrorKind
  | NotInitialized : ErrorKind
  | SingularMatrix : ErrorKind
deriving DecidableEq

/-- What the caller of `BDFIntegrator::step` observes: the call returns with a new state,
or it raises an error of the taxonomy and leaves a state behind, or its behaviour is
undefined. -/
inductive StepOutcome where
  | returned (s : BDFIntegrator) : StepOutcome
  | raised (e : ErrorKind) (s : BDFIntegrator) : StepOutcome
  | undefined : StepOutcome
deriving DecidableEq

/-- The outcome of `BDFIntegrator::step`: the function has no `throw` and no status
result, so it returns with the new state whenever its behaviour is defined. -/
def BDFIntegrator.stepOutcome (S : BandedSystem) (myODE : LinearODE) (s : BDFIntegrator) :
    StepOutcome :=
  match s.step S myODE with
  | some r => StepOutcome.returned r.1
  | none => StepOutcome.undefined

/-- A collaborator for the scalar problem `dy/dt = 2·y`: the `1 × 1` matrix `(2)` and
`c = (0)`. -/
def singularODE : LinearODE :=
  { get_A := fun B => { B with elem := [[2]] }
    get_C := fun _ => [0] }

/-- An integrator for `singularODE` with `y = (1)`, `t = 0` and `h = 1/2`, configured by
`set_size(1, 0, 0)`, `set_y0`, `set_t0`, `set_dt`: the matrix of its first step,
`A − (1/h)·I = (2 − 2)`, is singular. -/
def singularStart : BDFIntegrator :=
  ((((BDFIntegrator.create 0 0 0 0).set_size 1 0 0).set_y0 [1]).set_t0 0).set_dt (1 / 2)

/-- The dimension invariant of the spec: `A` and `LU` are allocated and
`len(y) = len(yprev) = N = size of A = size of LU = len(p)`. -/
def DimInv (s : BDFIntegrator) : Prop :=
  ∃ A LU, s.A = some A ∧ s.LU = some LU ∧ s.y.length = s.N ∧ s.yprev.length = s.N ∧
    A.N = s.N ∧ LU.N = s.N ∧ s.p.length = s.N

/-- The states of a valid session with band solver `S` and collaborator `myODE`: it begins
with `set_size(N, ·, ·)` and `set_y0` with `N` components (the collaborator returning `N`
offsets) and continues with any sequence of `set_y0` with `N` components, `set_t0`,
`set_dt` and `step`. -/
inductive Session (S : BandedSystem) (myODE : LinearODE) : BDFIntegrator → Prop where
  | start (s0 : BDFIntegrator) (N upper lower : Nat) (y0 : dvector) (hy : y0.length = N)
      (hC : ∀ c, (myODE.get_C c).length = N) :
      Session S myODE ((s0.set_size N upper lower).set_y0 y0)
  | set_y0 (s : BDFIntegrator) (y0 : dvector) (hs : Session S myODE s)
      (hy : y0.length = s.N) : Session S myODE (s.set_y0 y0)
  | set_t0 (s : BDFIntegrator) (t0 : ℚ) (hs : Session S myODE s) :
      Session S myODE (s.set_t0 t0)
  | set_dt (s : BDFIntegrator) (h : ℚ) (hs : Session S myODE s) :
      Session S myODE (s.set_dt h)
  | step (s : BDFIntegrator) (r : BDFIntegrator × List Call) (hs : Session S myODE s)
      (hr : s.step S myODE = some r) : Session S myODE r.1

/-- The collaborator fills the matrix buffer without changing its shape. -/
def LinearODE.KeepsShape (myODE : LinearODE) : Prop :=
  ∀ A, (myODE.get_A A).N = A.N ∧ (myODE.get_A A).upper_bw = A.upper_bw ∧
    (myODE.get_A A).lower_bw = A.lower_bw

/-- Two integrators agree on what a step with step counter `0` reads: `t`, `h`, `y`, `N`
and the bandwidths are equal, both have `A` and `LU` allocated, `LU` with the recorded
shape, and the collaborator writes the same matrix (of size `N`) and the same offsets into
either one's buffers.  Their `yprev`, `p` and the content of `LU`, `A` and `c` are
free. -/
def SameInputs (myODE : LinearODE) (s1 s2 : BDFIntegrator) : Prop :=
  s1.toIntegrator = s2.toIntegrator ∧ s1.upper_bw = s2.upper_bw ∧
    s1.lower_bw = s2.lower_bw ∧ s1.stepCount = 0 ∧ s2.stepCount = 0 ∧
    ∃ A1 A2 LU1 LU2, s1.A = some A1 ∧ s2.A = some A2 ∧ s1.LU = some LU1 ∧
      s2.LU = some LU2 ∧
      LU1.N = s1.N ∧ LU1.upper_bw = s1.upper_bw ∧ LU1.lower_bw = s1.lower_bw ∧
      LU2.N = s1.N ∧ LU2.upper_bw = s1.upper_bw ∧ LU2.lower_bw = s1.lower_bw ∧
      myODE.get_A A1 = myODE.get_A A2 ∧ (myODE.get_A A1).N = s1.N ∧
      myODE.get_C s1.c = myODE.get_C s2.c

/-- The integrator of the test before its first step, with stale content in `yprev`,
`c`, `p`, `A` and `LU`. -/
def testStartStale : BDFIntegrator :=
  { testStart 0 0 0 0 with
    yprev := [9, 9], c := [1, 2, 3], p := [7]
    A := some { N := 5, upper_bw := 1, lower_bw := 1, elem := [[4, 4, 4]] }
    LU := some { N := 5, upper_bw := 1, lower_bw := 1, elem := [[1], [2, 3]] } }

/-- The buffers `LU` and `p` of `s` hold the factorization, made by `S`, of the matrix
that `step` builds from `A` with the diagonal shift `x`, and that matrix is `A − x·I`
(`BandCopy` into a buffer of the recorded shape followed by the diagonal loop). -/
def HoldsFactor (S : BandedSystem) (s : BDFIntegrator) (A : sdBandMatrix) (x : ℚ) : Prop :=
  ∃ M, diagLoop x s.N
        (BandCopy A (sdBandMatrix.alloc s.N s.upper_bw s.lower_bw) s.upper_bw s.lower_bw)
        = some M ∧
    M.N = s.N ∧ M.toMatrix s.N = shifted s.N A x ∧
    s.LU = some (S.BandGBTRF M).1 ∧ s.p = (S.BandGBTRF M).2

/-- The integrator `s` put back to the "Transition" regime: its next `step` rebuilds the
BDF2 matrix from `A` and `h` and factorizes it again. -/
def BDFIntegrator.refactorizing (s : BDFIntegrator) : BDFIntegrator :=
  { s with stepCount := 1 }

/-! ## Auxiliary facts: lists and counted loops -/

theorem getD_set_eq {α : Type} (l : List α) (n i : Nat) (v d : α) :
    (l.set n v).getD i d = if i = n ∧ n < l.length then v else l.getD i d := by
  rw [List.getD_eq_getElem?_getD, List.getElem?_set, List.getD_eq_getElem?_getD]
  by_cases h : n = i
  · subst h
    by_cases h2 : n < l.length
    · simp [h2]
    · have h3 : l[n]? = none := List.getElem?_eq_none (Nat.le_of_not_lt h2)
      simp [h2, h3]
  · have h' : ¬ i = n := fun e => h e.symm
    simp [h, h']

theorem getD_map_range {α : Type} (f : Nat → α) (n k : Nat) (d : α) :
    ((List.range n).map f).getD k d = if k < n then f k else d := by
  rw [List.getD_eq_getElem?_getD, List.getElem?_map]
  by_cases h : k < n
  · simp [List.getElem?_range h, h]
  · have h3 : (List.range n)[k]? = none :=
      List.getElem?_eq_none (by simpa using Nat.le_of_not_lt h)
    simp [h3, h]

theorem list_ext_getD (u v : List ℚ) (hlen : u.length = v.length)
    (h : ∀ i, u.getD i 0 = v.getD i 0) : u = v := by
  apply List.ext_getElem hlen
  intro n h1 h2
  have := h n
  rwa [List.getD_eq_getElem u 0 h1, List.getD_eq_getElem v 0 h2] at this

/-- A loop that overwrites component `i` with `g i y[i]` for `i < N`: it is defined as soon
as every index is in range, keeps the length, and leaves the components from `N` on. -/
theorem forLoop_set_spec (g : Nat → ℚ → ℚ) (ok : Nat → Prop) [DecidablePred ok]
    (y : dvector) (N : Nat) (hy : N ≤ y.length) (hok : ∀ i, i < N → ok i) :
    ∃ r, forLoop (fun i (y : dvector) =>
            if i < y.length ∧ ok i then some (y.set i (g i (y.getD i 0))) else none) N y
          = some r ∧ r.length = y.length ∧
        ∀ i, r.getD i 0 = if i < N then g i (y.getD i 0) else y.getD i 0 := by
  induction N with
  | zero => exact ⟨y, rfl, rfl, fun i => by simp⟩
  | succ n ih =>
    obtain ⟨r, hr, hlen, hget⟩ := ih (Nat.le_of_succ_le hy) (fun i hi => hok i (Nat.lt_succ_of_lt hi))
    have hn : n < r.length := by omega
    refine ⟨r.set n (g n (r.getD n 0)), ?_, ?_, ?_⟩
    · simp only [forLoop, hr, Option.some_bind]
      rw [if_pos ⟨hn, hok n (Nat.lt_succ_self n)⟩]
    · simp [hlen]
    · intro i
      rw [getD_set_eq]
      by_cases hi : i = n
      · subst hi
        have := hget i
        rw [if_neg (Nat.lt_irrefl i)] at this
        rw [if_pos ⟨rfl, hn⟩, if_pos (Nat.lt_succ_self i), this]
      · have := hget i
        rw [if_neg (fun hc => hi hc.1), this]
        by_cases hlt : i < n
        · rw [if_pos hlt, if_pos (Nat.lt_succ_of_lt hlt)]
        · rw [if_neg hlt, if_neg (by omega)]

theorem rhsLoop1_spec (h : ℚ) (c y : dvector) (N : Nat) (hy : N ≤ y.length)
    (hc : N ≤ c.length) :
    ∃ rhs, rhsLoop1 h c N y = some rhs ∧ rhs.length = y.length ∧
      ∀ i, rhs.getD i 0 = if i < N then -(y.getD i 0) / h - c.getD i 0 else y.getD i 0 :=
  forLoop_set_spec (fun i v => -v / h - c.getD i 0) (fun i => i < c.length) y N hy
    (fun _ hi => Nat.lt_of_lt_of_le hi hc)

theorem rhsLoop2_spec (h : ℚ) (yprev c y : dvector) (N : Nat) (hy : N ≤ y.length)
    (hp : N ≤ yprev.length) (hc : N ≤ c.length) :
    ∃ rhs, rhsLoop2 h yprev c N y = some rhs ∧ rhs.length = y.length ∧
      ∀ i, rhs.getD i 0 =
        if i < N then -2 * (y.getD i 0) / h + yprev.getD i 0 / (2 * h) - c.getD i 0
        else y.getD i 0 :=
  forLoop_set_spec (fun i v => -2 * v / h + yprev.getD i 0 / (2 * h) - c.getD i 0)
    (fun i => i < yprev.length ∧ i < c.length) y N hy
    (fun _ hi => ⟨Nat.lt_of_lt_of_le hi hp, Nat.lt_of_lt_of_le hi hc⟩)

/-! ## Auxiliary facts: band matrices -/

/-- The update `M(i,i) -= x` on a stored diagonal element: it keeps the shape and changes
the entry `(i, i)` only. -/
theorem subAt_diag_spec (M : sdBandMatrix) (i : Nat) (x : ℚ) (hi : i < M.elem.length)
    (hw : M.lower_bw < (M.elem.getD i []).length) :
    ∃ M', M.subAt i i x = some M' ∧ M'.N = M.N ∧ M'.upper_bw = M.upper_bw ∧
      M'.lower_bw = M.lower_bw ∧ M'.elem.length = M.elem.length ∧
      (∀ a, (M'.elem.getD a []).length = (M.elem.getD a []).length) ∧
      ∀ a b, M'.entry a b = M.entry a b - if a = i ∧ b = i then x else 0 := by
  have hpos : i + M.lower_bw - i = M.lower_bw := by omega
  have hcond : i ≤ i + M.lower_bw ∧ i ≤ i + M.upper_bw ∧ i < M.elem.length ∧
      i + M.lower_bw - i < (M.elem.getD i []).length :=
    ⟨Nat.le_add_right _ _, Nat.le_add_right _ _, hi, by rw [hpos]; exact hw⟩
  refine ⟨{ M with
      elem := M.elem.set i ((M.elem.getD i []).set (i + M.lower_bw - i) (M.entry i i - x)) },
    by rw [sdBandMatrix.subAt, if_pos hcond], rfl, rfl, rfl, ?_, ?_, ?_⟩
  · simp
  · intro a
    rw [getD_set_eq]
    by_cases ha : a = i ∧ i < M.elem.length
    · rw [if_pos ha, ha.1]; simp
    · rw [if_neg ha]
  · intro a b
    have hii : M.entry i i = (M.elem.getD i []).getD M.lower_bw 0 := by
      rw [sdBandMatrix.entry, if_pos ⟨Nat.le_add_right _ _, Nat.le_add_right _ _⟩, hpos]
    unfold sdBandMatrix.entry
    dsimp only
    by_cases hband : a ≤ b + M.lower_bw ∧ b ≤ a + M.upper_bw
    · rw [if_pos hband, if_pos hband, getD_set_eq]
      by_cases ha : a = i
      · subst ha
        rw [if_pos ⟨rfl, hi⟩, getD_set_eq, hpos]
        by_cases hb : b = a
        · rw [hb, if_pos ⟨hpos, hw⟩, if_pos ⟨Nat.le_add_right _ _, Nat.le_add_right _ _⟩,
            if_pos ⟨rfl, rfl⟩, hpos]
        · have hne : ¬ (b + M.lower_bw - a = M.lower_bw ∧
              M.lower_bw < (M.elem.getD a []).length) := by
            intro hc
            have := hband.1
            omega
          rw [if_neg hne, if_neg (fun hc => hb hc.2), sub_zero]
      · rw [if_neg (fun hc => ha hc.1), if_neg (fun hc => ha hc.1), sub_zero]
    · rw [if_neg hband, if_neg hband]
      have hne : ¬ (a = i ∧ b = i) := by
        intro hc
        apply hband
        rw [hc.1, hc.2]
        exact ⟨Nat.le_add_right _ _, Nat.le_add_right _ _⟩
      rw [if_neg hne, sub_zero]

/-- The loop `for (i < N) M(i,i) -= x` on a matrix with at least `N` stored rows that hold
their diagonal element: it is defined, keeps the shape and subtracts `x` from the first
`N` diagonal entries. -/
theorem diagLoop_spec (x : ℚ) (N : Nat) (M : sdBandMatrix) (hrows : N ≤ M.elem.length)
    (hw : ∀ i, i < N → M.lower_bw < (M.elem.getD i []).length) :
    ∃ M', diagLoop x N M = some M' ∧ M'.N = M.N ∧ M'.upper_bw = M.upper_bw ∧
      M'.lower_bw = M.lower_bw ∧ M'.elem.length = M.elem.length ∧
      (∀ a, (M'.elem.getD a []).length = (M.elem.getD a []).length) ∧
      ∀ a b, M'.entry a b = M.entry a b - if a = b ∧ a < N then x else 0 := by
  induction N with
  | zero => exact ⟨M, rfl, rfl, rfl, rfl, rfl, fun _ => rfl, fun a b => by simp⟩
  | succ n ih =>
    obtain ⟨M1, h1, hN, hu, hl, hlen, hrow, hent⟩ :=
      ih (Nat.le_of_succ_le hrows) (fun i hi => hw i (Nat.lt_succ_of_lt hi))
    obtain ⟨M2, h2, hN2, hu2, hl2, hlen2, hrow2, hent2⟩ :=
      subAt_diag_spec M1 n x (by omega) (by rw [hl, hrow]; exact hw n (Nat.lt_succ_self n))
    refine ⟨M2, ?_, hN2.trans hN, hu2.trans hu, hl2.trans hl, hlen2.trans hlen,
      fun a => (hrow2 a).trans (hrow a), ?_⟩
    · unfold diagLoop at h1 ⊢
      simp only [forLoop, h1, Option.some_bind]
      exact h2
    · intro a b
      rw [hent2, hent]
      split_ifs with c1 c2 c3 c3 c2 c3 c3 <;> first | (exfalso; omega) | ring

theorem BandCopy_shape (A B : sdBandMatrix) (mu ml : Nat) :
    (BandCopy A B mu ml).N = B.N ∧ (BandCopy A B mu ml).upper_bw = B.upper_bw ∧
      (BandCopy A B mu ml).lower_bw = B.lower_bw ∧
      (BandCopy A B mu ml).elem.length = B.N ∧
      ∀ i, i < B.N →
        ((BandCopy A B mu ml).elem.getD i []).length = B.upper_bw + B.lower_bw + 1 := by
  refine ⟨rfl, rfl, rfl, by simp [BandCopy], ?_⟩
  intro i hi
  unfold BandCopy
  dsimp only
  rw [getD_map_range, if_pos hi]
  simp

/-- Copying the whole band between matrices of one shape copies every entry. -/
theorem BandCopy_entry (A B : sdBandMatrix) (hN : A.N = B.N)
    (hu : A.upper_bw = B.upper_bw) (hl : A.lower_bw = B.lower_bw) (i j : Nat)
    (hi : i < B.N) :
    (BandCopy A B B.upper_bw B.lower_bw).entry i j = A.entry i j := by
  unfold sdBandMatrix.entry
  rw [hu, hl]
  have hlb : (BandCopy A B B.upper_bw B.lower_bw).lower_bw = B.lower_bw := rfl
  have hub : (BandCopy A B B.upper_bw B.lower_bw).upper_bw = B.upper_bw := rfl
  rw [hlb, hub]
  by_cases hband : i ≤ j + B.lower_bw ∧ j ≤ i + B.upper_bw
  · rw [if_pos hband, if_pos hband]
    unfold BandCopy
    dsimp only
    rw [getD_map_range, if_pos hi, getD_map_range]
    have hk : j + B.lower_bw - i < B.upper_bw + B.lower_bw + 1 := by
      have := hband.2
      omega
    rw [if_pos hk, if_pos ⟨by rw [hN]; exact hi, by omega, by have := hband.2; omega⟩, hl]
    congr 1
    omega
  · rw [if_neg hband, if_neg hband]

/-! ## Auxiliary facts: one step of `BDFIntegrator` -/

theorem toMatrix_shift (n : Nat) (M A : sdBandMatrix) (x : ℚ)
    (h : ∀ a b, a < n → M.entry a b = A.entry a b - if a = b ∧ a < n then x else 0) :
    M.toMatrix n = shifted n A x := by
  funext i j
  have := h i j i.isLt
  simp only [sdBandMatrix.toMatrix, shifted, Matrix.sub_apply, Matrix.smul_apply,
    Matrix.one_apply, smul_eq_mul]
  rw [this]
  by_cases hij : i = j
  · have : (i : Nat) = j := congrArg Fin.val hij
    rw [if_pos ⟨this, i.isLt⟩, if_pos hij, mul_one]
  · have : ¬ (i : Nat) = j := fun hc => hij (Fin.ext hc)
    rw [if_neg (fun hc => this hc.1), if_neg hij, mul_zero]

/-- The matrix built by `step` from the band of `A` and the diagonal shift `x`. -/
theorem build_matrix_spec (s : BDFIntegrator) (A LU : sdBandMatrix) (x : ℚ)
    (hAN : A.N = s.N) (hAu : A.upper_bw = s.upper_bw) (hAl : A.lower_bw = s.lower_bw)
    (hLN : LU.N = s.N) (hLu : LU.upper_bw = s.upper_bw) (hLl : LU.lower_bw = s.lower_bw) :
    ∃ M, diagLoop x s.N (BandCopy A LU s.upper_bw s.lower_bw) = some M ∧ M.N = s.N ∧
      M.upper_bw = s.upper_bw ∧ M.lower_bw = s.lower_bw ∧
      M.toMatrix s.N = shifted s.N A x := by
  obtain ⟨hbN, hbu, hbl, hblen, hbrow⟩ := BandCopy_shape A LU s.upper_bw s.lower_bw
  obtain ⟨M, hM, hN, hu, hl, _, _, hent⟩ :=
    diagLoop_spec x s.N (BandCopy A LU s.upper_bw s.lower_bw)
      (by rw [hblen, hLN])
      (fun i hi => by rw [hbrow i (by rw [hLN]; exact hi), hbl]; omega)
  refine ⟨M, hM, by rw [hN, hbN, hLN], by rw [hu, hbu, hLu], by rw [hl, hbl, hLl], ?_⟩
  apply toMatrix_shift
  intro a b ha
  rw [hent a b]
  have := BandCopy_entry A LU (hAN.trans hLN.symm) (hAu.trans hLu.symm)
    (hAl.trans hLl.symm) a b (by rw [hLN]; exact ha)
  rw [hLu, hLl] at this
  rw [this]

/-- The step taken with `stepCount = 0` in a valid session. -/
theorem step_init_spec (S : BandedSystem) (myODE : LinearODE) (s : BDFIntegrator)
    (hv : s.Valid myODE) (h0 : s.stepCount = 0) (A : sdBandMatrix) (hA : s.A = some A) :
    ∃ M rhs,
      s.step S myODE =
        some ({ s with
                yprev := s.y, A := some (myODE.get_A A), c := myODE.get_C s.c
                LU := some (S.BandGBTRF M).1, p := (S.BandGBTRF M).2
                y := S.BandGBTRS (S.BandGBTRF M).1 (S.BandGBTRF M).2 rhs
                stepCount := s.stepCount + 1, t := s.t + s.h },
              [Call.get_A, Call.get_C, Call.BandGBTRF M, Call.BandGBTRS rhs]) ∧
      M.N = s.N ∧ M.upper_bw = s.upper_bw ∧ M.lower_bw = s.lower_bw ∧
      M.toMatrix s.N = shifted s.N (myODE.get_A A) (1 / s.h) ∧
      rhs.length = s.N ∧
      ∀ i, i < s.N → rhs.getD i 0 = -(s.y.getD i 0) / s.h - (myODE.get_C s.c).getD i 0 := by
  obtain ⟨A', hA', hAN, hAu, hAl⟩ := hv.A_alloc
  obtain ⟨LU, hLU, hLN, hLu, hLl⟩ := hv.LU_alloc
  rw [hA] at hA'
  cases hA'
  obtain ⟨gN, gu, gl⟩ := hv.get_A_shape A
  obtain ⟨M, hM, hMN, hMu, hMl, hMat⟩ :=
    build_matrix_spec s (myODE.get_A A) LU (1 / s.h) (gN.trans hAN) (gu.trans hAu)
      (gl.trans hAl) hLN hLu hLl
  obtain ⟨rhs, hrhs, hlen, hget⟩ :=
    rhsLoop1_spec s.h (myODE.get_C s.c) s.y s.N (by rw [hv.y_length])
      (by rw [hv.get_C_length])
  refine ⟨M, rhs, ?_, hMN, hMu, hMl, hMat, hlen.trans hv.y_length, ?_⟩
  · unfold BDFIntegrator.step
    rw [hA, hLU]
    simp only [h0, if_true, hM, hrhs, Option.some_bind]
  · intro i hi
    rw [hget i, if_pos hi]

/-- The step taken with `stepCount ≠ 0` in a valid session. -/
theorem step_bdf2_spec (S : BandedSystem) (myODE : LinearODE) (s : BDFIntegrator)
    (hv : s.Valid myODE) (h0 : s.stepCount ≠ 0) (A LU : sdBandMatrix) (hA : s.A = some A)
    (hLU : s.LU = some LU) :
    ∃ rhs, rhs.length = s.N ∧
      (∀ i, i < s.N → rhs.getD i 0 =
        -2 * (s.y.getD i 0) / s.h + s.yprev.getD i 0 / (2 * s.h) - s.c.getD i 0) ∧
      (s.stepCount = 1 → ∃ M, M.N = s.N ∧ M.upper_bw = s.upper_bw ∧
        M.lower_bw = s.lower_bw ∧ M.toMatrix s.N = shifted s.N A (3 / (2 * s.h)) ∧
        s.step S myODE =
          some ({ s with
                  LU := some (S.BandGBTRF M).1, p := (S.BandGBTRF M).2, yprev := s.y
                  y := S.BandGBTRS (S.BandGBTRF M).1 (S.BandGBTRF M).2 rhs
                  stepCount := s.stepCount + 1, t := s.t + s.h },
                [Call.BandGBTRF M, Call.BandGBTRS rhs])) ∧
      (s.stepCount ≠ 1 →
        s.step S myODE =
          some ({ s with
                  LU := some LU, p := s.p, yprev := s.y
                  y := S.BandGBTRS LU s.p rhs
                  stepCount := s.stepCount + 1, t := s.t + s.h },
                [Call.BandGBTRS rhs])) := by
  obtain ⟨A', hA', hAN, hAu, hAl⟩ := hv.A_alloc
  obtain ⟨LU', hLU', hLN, hLu, hLl⟩ := hv.LU_alloc
  rw [hA] at hA'
  cases hA'
  rw [hLU] at hLU'
  cases hLU'
  obtain ⟨hyp, hc⟩ := hv.history h0
  obtain ⟨rhs, hrhs, hlen, hget⟩ :=
    rhsLoop2_spec s.h s.yprev s.c s.y s.N (by rw [hv.y_length]) (by rw [hyp]) (by rw [hc])
  refine ⟨rhs, hlen.trans hv.y_length, fun i hi => by rw [hget i, if_pos hi], ?_, ?_⟩
  · intro h1
    obtain ⟨M, hM, hMN, hMu, hMl, hMat⟩ :=
      build_matrix_spec s A LU (3 / (2 * s.h)) hAN hAu hAl hLN hLu hLl
    refine ⟨M, hMN, hMu, hMl, hMat, ?_⟩
    unfold BDFIntegrator.step
    rw [hA, hLU]
    simp only [h0, h1, if_true, if_false, hM, hrhs, Option.some_bind, Option.map_some',
      List.singleton_append, one_ne_zero]
  · intro h1
    unfold BDFIntegrator.step
    rw [hA, hLU]
    simp only [h0, h1, if_false, hrhs, Option.some_bind, List.nil_append]

/-- Summary of one step in a valid session: it is defined, the session stays valid, and
the bookkeeping and the calls are as listed. -/
theorem step_summary (S : BandedSystem) (myODE : LinearODE) (s : BDFIntegrator)
    (hv : s.Valid myODE) :
    ∃ r, s.step S myODE = some r ∧ r.1.Valid myODE ∧
      r.1.stepCount = s.stepCount + 1 ∧ r.1.N = s.N ∧ r.1.h = s.h ∧
      r.1.upper_bw = s.upper_bw ∧ r.1.lower_bw = s.lower_bw ∧ r.1.t = s.t + s.h ∧
      r.1.yprev = s.y ∧
      r.1.A = (if s.stepCount = 0 then s.A.map myODE.get_A else s.A) ∧
      r.1.c = (if s.stepCount = 0 then myODE.get_C s.c else s.c) ∧
      r.2.countP Call.isFactor = (if s.stepCount ≤ 1 then 1 else 0) ∧
      r.2.countP Call.isGetA = (if s.stepCount = 0 then 1 else 0) ∧
      r.2.countP Call.isGetC = (if s.stepCount = 0 then 1 else 0) := by
  obtain ⟨A, hA, hAN, hAu, hAl⟩ := hv.A_alloc
  obtain ⟨LU, hLU, hLN, hLu, hLl⟩ := hv.LU_alloc
  by_cases h0 : s.stepCount = 0
  · obtain ⟨M, rhs, hstep, hMN, hMu, hMl, _, hlen, _⟩ := step_init_spec S myODE s hv h0 A hA
    obtain ⟨gN, gu, gl⟩ := hv.get_A_shape A
    refine ⟨_, hstep, ?_, rfl, rfl, rfl, rfl, rfl, rfl, rfl, ?_, ?_, ?_, ?_, ?_⟩
    · exact
        { A_alloc := ⟨myODE.get_A A, rfl, gN.trans hAN, gu.trans hAu, gl.trans hAl⟩
          LU_alloc := ⟨(S.BandGBTRF M).1, rfl, (S.factor_N M).trans hMN,
            (S.factor_upper M).trans hMu, (S.factor_lower M).trans hMl⟩
          y_length := (S.solve_length _ _ _).trans hlen
          get_A_shape := hv.get_A_shape
          get_C_length := hv.get_C_length
          history := fun _ => ⟨hv.y_length, hv.get_C_length s.c⟩ }
    · simp [h0, hA]
    · simp [h0]
    · simp [h0, Call.isFactor, List.countP_cons]
    · simp [h0, Call.isGetA, List.countP_cons]
    · simp [h0, Call.isGetC, List.countP_cons]
  · obtain ⟨rhs, hlen, _, hone, hmore⟩ := step_bdf2_spec S myODE s hv h0 A LU hA hLU
    obtain ⟨hyp, hc⟩ := hv.history h0
    by_cases h1 : s.stepCount = 1
    · obtain ⟨M, hMN, hMu, hMl, _, hstep⟩ := hone h1
      refine ⟨_, hstep, ?_, rfl, rfl, rfl, rfl, rfl, rfl, rfl, ?_, ?_, ?_, ?_, ?_⟩
      · exact
          { A_alloc := ⟨A, hA, hAN, hAu, hAl⟩
            LU_alloc := ⟨(S.BandGBTRF M).1, rfl, (S.factor_N M).trans hMN,
              (S.factor_upper M).trans hMu, (S.factor_lower M).trans hMl⟩
            y_length := (S.solve_length _ _ _).trans hlen
            get_A_shape := hv.get_A_shape
            get_C_length := hv.get_C_length
            history := fun _ => ⟨hv.y_length, hc⟩ }
      · simp [h0]
      · simp [h0]
      · simp [h1, Call.isFactor, List.countP_cons]
      · simp [h0, Call.isGetA, List.countP_cons]
      · simp [h0, Call.isGetC, List.countP_cons]
    · have hstep := hmore h1
      have h2 : ¬ s.stepCount ≤ 1 := by omega
      refine ⟨_, hstep, ?_, rfl, rfl, rfl, rfl, rfl, rfl, rfl, ?_, ?_, ?_, ?_, ?_⟩
      · exact
          { A_alloc := ⟨A, hA, hAN, hAu, hAl⟩
            LU_alloc := ⟨LU, rfl, hLN, hLu, hLl⟩
            y_length := (S.solve_length _ _ _).trans hlen
            get_A_shape := hv.get_A_shape
            get_C_length := hv.get_C_length
            history := fun _ => ⟨hv.y_length, hc⟩ }
      · simp [h0]
      · simp [h0]
      · simp [h2, Call.isFactor, List.countP_cons]
      · simp [h0, Call.isGetA, List.countP_cons]
      · simp [h0, Call.isGetC, List.countP_cons]

theorem steps_succ (S : BandedSystem) (myODE : LinearODE) (n : Nat) (s : BDFIntegrator)
    (r r2 : BDFIntegrator × List Call) (h1 : BDFIntegrator.steps S myODE n s = some r)
    (h2 : r.1.step S myODE = some r2) :
    BDFIntegrator.steps S myODE (n + 1) s = some (r2.1, r.2 ++ r2.2) := by
  simp [BDFIntegrator.steps, h1, h2]

/-- Summary of `k` consecutive steps from a valid state with `stepCount = 0`. -/
theorem steps_summary (S : BandedSystem) (myODE : LinearODE) (s : BDFIntegrator)
    (hv : s.Valid myODE) (h0 : s.stepCount = 0) (k : Nat) :
    ∃ r, BDFIntegrator.steps S myODE k s = some r ∧ r.1.Valid myODE ∧
      r.1.stepCount = k ∧ r.1.N = s.N ∧ r.1.h = s.h ∧
      r.1.upper_bw = s.upper_bw ∧ r.1.lower_bw = s.lower_bw ∧ r.1.t = s.t + k * s.h ∧
      (0 < k → r.1.A = s.A.map myODE.get_A ∧ r.1.c = myODE.get_C s.c) ∧
      r.2.countP Call.isFactor = min k 2 ∧
      r.2.countP Call.isGetA = min k 1 ∧
      r.2.countP Call.isGetC = min k 1 := by
  induction k with
  | zero =>
    exact ⟨(s, []), rfl, hv, h0, rfl, rfl, rfl, rfl, by simp, fun h => absurd h (by simp),
      rfl, rfl, rfl⟩
  | succ n ih =>
    obtain ⟨r, hr, hrv, hcnt, hN, hh, hu, hl, ht, hAc, hF, hGA, hGC⟩ := ih
    obtain ⟨r2, hr2, hv2, hcnt2, hN2, hh2, hu2, hl2, ht2, _, hA2, hc2, hF2, hGA2, hGC2⟩ :=
      step_summary S myODE r.1 hrv
    refine ⟨(r2.1, r.2 ++ r2.2), steps_succ S myODE n s r r2 hr hr2, hv2, ?_, hN2.trans hN,
      hh2.trans hh, hu2.trans hu, hl2.trans hl, ?_, ?_, ?_, ?_, ?_⟩
    · rw [hcnt2, hcnt]
    · rw [ht2, ht, hh]; push_cast; ring
    · intro _
      rw [hA2, hc2, hcnt]
      by_cases hn : n = 0
      · subst hn
        have hrs : r = (s, []) := by simpa [BDFIntegrator.steps] using hr.symm
        simp [hrs]
      · obtain ⟨e1, e2⟩ := hAc (Nat.pos_of_ne_zero hn)
        simp [hn, e1, e2]
    · rw [List.countP_append, hF, hF2, hcnt]
      split_ifs <;> omega
    · rw [List.countP_append, hGA, hGA2, hcnt]
      split_ifs <;> omega
    · rw [List.countP_append, hGC, hGC2, hcnt]
      split_ifs <;> omega

/-! ## Auxiliary facts: exact solvers and valid sessions -/

/-- Cramer's rule solves exactly. -/
theorem cramerSystem_exact : cramerSystem.Exact := by
  intro M b hdet hb
  have hvec : dvector.toVec M.N
      (cramerSystem.BandGBTRS (cramerSystem.BandGBTRF M).1 (cramerSystem.BandGBTRF M).2 b)
      = (M.toMatrix M.N).det⁻¹ • Matrix.cramer (M.toMatrix M.N) (dvector.toVec M.N b) := by
    funext i
    simp only [dvector.toVec, cramerSystem, Pi.smul_apply, smul_eq_mul]
    rw [getD_map_range, if_pos (by rw [hb]; exact i.isLt), dif_pos i.isLt]
  rw [hvec, Matrix.mulVec_smul, Matrix.mulVec_cramer, smul_smul, inv_mul_cancel₀ hdet,
    one_smul]

/-- An exact solver applied to a nonsingular matrix of size `n`. -/
theorem exact_at (S : BandedSystem) (hS : S.Exact) (M : sdBandMatrix) (n : Nat)
    (hn : M.N = n) (b : dvector) (hdet : (M.toMatrix n).det ≠ 0) (hb : b.length = n) :
    (M.toMatrix n).mulVec
        (dvector.toVec n (S.BandGBTRS (S.BandGBTRF M).1 (S.BandGBTRF M).2 b))
      = dvector.toVec n b := by
  subst hn
  exact hS M b hdet hb

/-- A nonsingular system has at most one solution. -/
theorem solution_unique (n : Nat) (M : Matrix (Fin n) (Fin n) ℚ) (hdet : M.det ≠ 0)
    (u v : Fin n → ℚ) (h : M.mulVec u = M.mulVec v) : u = v := by
  have hunit : IsUnit M := (Matrix.isUnit_iff_isUnit_det M).mpr (IsUnit.mk0 _ hdet)
  exact Matrix.mulVec_injective_iff_isUnit.mpr hunit h

/-- After `set_size` and `set_y0` with a vector of the allocated length the session is
valid, for a collaborator that respects the shapes. -/
theorem valid_set_size_set_y0 (myODE : LinearODE) (s : BDFIntegrator)
    (N upper lower : Nat) (y0 : dvector) (hy : y0.length = N)
    (hA : ∀ A, (myODE.get_A A).N = A.N ∧ (myODE.get_A A).upper_bw = A.upper_bw ∧
      (myODE.get_A A).lower_bw = A.lower_bw)
    (hC : ∀ c, (myODE.get_C c).length = N) :
    ((s.set_size N upper lower).set_y0 y0).Valid myODE :=
  { A_alloc := ⟨sdBandMatrix.alloc N upper lower, rfl, hy.symm, rfl, rfl⟩
    LU_alloc := ⟨sdBandMatrix.alloc N upper lower, rfl, hy.symm, rfl, rfl⟩
    y_length := rfl
    get_A_shape := hA
    get_C_length := fun c => (hC c).trans hy.symm
    history := fun h => absurd rfl h }

theorem valid_set_y0 (myODE : LinearODE) (s : BDFIntegrator) (hv : s.Valid myODE)
    (y0 : dvector) (hy : y0.length = s.N) : (s.set_y0 y0).Valid myODE :=
  { A_alloc := by
      obtain ⟨A, h1, h2, h3, h4⟩ := hv.A_alloc
      exact ⟨A, h1, h2.trans hy.symm, h3, h4⟩
    LU_alloc := by
      obtain ⟨A, h1, h2, h3, h4⟩ := hv.LU_alloc
      exact ⟨A, h1, h2.trans hy.symm, h3, h4⟩
    y_length := rfl
    get_A_shape := hv.get_A_shape
    get_C_length := fun c => (hv.get_C_length c).trans hy.symm
    history := fun h => absurd rfl h }

theorem valid_set_t0 (myODE : LinearODE) (s : BDFIntegrator) (hv : s.Valid myODE)
    (t0 : ℚ) : (s.set_t0 t0).Valid myODE :=
  { A_alloc := hv.A_alloc
    LU_alloc := hv.LU_alloc
    y_length := hv.y_length
    get_A_shape := hv.get_A_shape
    get_C_length := hv.get_C_length
    history := fun h => absurd rfl h }

theorem valid_set_dt (myODE : LinearODE) (s : BDFIntegrator) (hv : s.Valid myODE)
    (h_in : ℚ) : (s.set_dt h_in).Valid myODE :=
  { A_alloc := hv.A_alloc
    LU_alloc := hv.LU_alloc
    y_length := hv.y_length
    get_A_shape := hv.get_A_shape
    get_C_length := hv.get_C_length
    history := fun h => absurd rfl h }

/-- The integrator of the test fixture is in a valid session. -/
theorem testStart_valid (h0 : ℚ) (N0 upper0 lower0 : Nat) :
    (testStart h0 N0 upper0 lower0).Valid testODE.toLinearODE :=
  valid_set_dt _ _
    (valid_set_t0 _ _
      (valid_set_size_set_y0 testODE.toLinearODE _ 5 1 1 testY0 rfl
        (fun _ => ⟨rfl, rfl, rfl⟩) (fun _ => rfl)) 0) (1 / 5)

/-! ## C1 — factorizations per session -/

/-- C1. In a valid session started with `stepCount = 0` (after `set_size` and `set_y0`),
the first `step` hands `A − (1/h)·I` to `BandGBTRF`, the second hands `A − (3/(2h))·I` to
it exactly once, every later `step` makes no factorization, and `n` consecutive steps make
`min n 2` factorizations in all. -/
theorem bdf_factorization_count (S : BandedSystem) (myODE : LinearODE) (s : BDFIntegrator)
    (A : sdBandMatrix) (hv : s.Valid myODE) (h0 : s.stepCount = 0) (hA : s.A = some A) :
    (∃ r1 M1, s.step S myODE = some r1 ∧
        r1.2.filter Call.isFactor = [Call.BandGBTRF M1] ∧
        M1.toMatrix s.N = shifted s.N (myODE.get_A A) (1 / s.h)) ∧
    (∃ r1 r2 M2, BDFIntegrator.steps S myODE 1 s = some r1 ∧
        r1.1.step S myODE = some r2 ∧
        r2.2.filter Call.isFactor = [Call.BandGBTRF M2] ∧
        M2.toMatrix s.N = shifted s.N (myODE.get_A A) (3 / (2 * s.h))) ∧
    (∀ k, 2 ≤ k → ∃ rk r, BDFIntegrator.steps S myODE k s = some rk ∧
        rk.1.step S myODE = some r ∧ r.2.filter Call.isFactor = []) ∧
    (∀ n, ∃ r, BDFIntegrator.steps S myODE n s = some r ∧
        r.2.countP Call.isFactor = min n 2) := by
  refine ⟨?_, ?_, ?_, ?_⟩
  · obtain ⟨M, rhs, hstep, _, _, _, hMat, _, _⟩ := step_init_spec S myODE s hv h0 A hA
    exact ⟨_, M, hstep, by simp [Call.isFactor], hMat⟩
  · obtain ⟨r1, hr1, hv1, hc1, hN1, hh1, _, _, _, hAc, _, _, _⟩ :=
      steps_summary S myODE s hv h0 1
    obtain ⟨LU, hLU, _⟩ := hv1.LU_alloc
    have hA1 : r1.1.A = some (myODE.get_A A) := by rw [(hAc Nat.one_pos).1, hA]; rfl
    obtain ⟨rhs, _, _, hone, _⟩ :=
      step_bdf2_spec S myODE r1.1 hv1 (by rw [hc1]; exact one_ne_zero) _ LU hA1 hLU
    obtain ⟨M, _, _, _, hMat, hstep⟩ := hone hc1
    rw [hN1, hh1] at hMat
    exact ⟨r1, _, M, hr1, hstep, by simp [Call.isFactor], hMat⟩
  · intro k hk
    obtain ⟨rk, hrk, hvk, hck, _, _, _, _, _, _, _, _, _⟩ := steps_summary S myODE s hv h0 k
    obtain ⟨A', hA', _⟩ := hvk.A_alloc
    obtain ⟨LU, hLU, _⟩ := hvk.LU_alloc
    obtain ⟨rhs, _, _, _, hmore⟩ :=
      step_bdf2_spec S myODE rk.1 hvk (by rw [hck]; omega) A' LU hA' hLU
    exact ⟨rk, _, hrk, hmore (by rw [hck]; omega), by simp [Call.isFactor]⟩
  · intro n
    obtain ⟨r, hr, _, _, _, _, _, _, _, _, hF, _, _⟩ := steps_summary S myODE s hv h0 n
    exact ⟨r, hr, hF⟩

/-- C1, at the integrator of the test fixture with the Cramer solver: seven steps make two
factorizations. -/
theorem bdf_factorization_count_witness :
    (testStart 0 0 0 0).Valid testODE.toLinearODE ∧ (testStart 0 0 0 0).stepCount = 0 ∧
      (testStart 0 0 0 0).A = some (sdBandMatrix.alloc 5 1 1) ∧
      ∃ r, BDFIntegrator.steps cramerSystem testODE.toLinearODE 7 (testStart 0 0 0 0) = some r ∧
        r.2.countP Call.isFactor = min 7 2 :=
  ⟨testStart_valid 0 0 0 0, rfl, rfl,
    (bdf_factorization_count cramerSystem testODE.toLinearODE (testStart 0 0 0 0)
      (sdBandMatrix.alloc 5 1 1) (testStart_valid 0 0 0 0) rfl rfl).2.2.2 7⟩

/-! ## C2 — the setters reset the regime -/

theorem initStep_of_valid (S : BandedSystem) (myODE : LinearODE) (s : BDFIntegrator)
    (hv : s.Valid myODE) (h0 : s.stepCount = 0) : InitStep S myODE s := by
  obtain ⟨A, hA, _⟩ := hv.A_alloc
  obtain ⟨M, rhs, hstep, _, _, _, hMat, hlen, hget⟩ := step_init_spec S myODE s hv h0 A hA
  exact ⟨A, M, rhs, _, hA, hstep, rfl, rfl, hMat, hlen, hget, rfl, rfl, rfl,
    by simp [h0]⟩

/-- C2. In a valid session, after any number `k` of steps, each of `set_dt`, `set_t0` and
`set_y0` sets the step counter to `0`, and the next `step` (after `set_y0`: for a vector
of the session's length) is an Init step: it snapshots `yprev ← y`, factorizes
`A − (1/h)·I` for the current `h` (the new one after `set_dt`) and solves the BDF1
system. -/
theorem setters_reset_regime (S : BandedSystem) (myODE : LinearODE) (s0 : BDFIntegrator)
    (hv : s0.Valid myODE) (h0 : s0.stepCount = 0) (k : Nat)
    (rk : BDFIntegrator × List Call) (hk : BDFIntegrator.steps S myODE k s0 = some rk)
    (h' t0' : ℚ) (y0' : dvector) :
    ((rk.1.set_dt h').stepCount = 0 ∧ (rk.1.set_dt h').h = h' ∧
        InitStep S myODE (rk.1.set_dt h')) ∧
    ((rk.1.set_t0 t0').stepCount = 0 ∧ (rk.1.set_t0 t0').t = t0' ∧
        InitStep S myODE (rk.1.set_t0 t0')) ∧
    ((rk.1.set_y0 y0').stepCount = 0 ∧ (rk.1.set_y0 y0').y = y0' ∧
        (y0'.length = rk.1.N → InitStep S myODE (rk.1.set_y0 y0'))) := by
  obtain ⟨r, hr, hrv, _⟩ := steps_summary S myODE s0 hv h0 k
  rw [hk] at hr
  cases hr
  exact ⟨⟨rfl, rfl, initStep_of_valid S myODE _ (valid_set_dt myODE _ hrv h') rfl⟩,
    ⟨rfl, rfl, initStep_of_valid S myODE _ (valid_set_t0 myODE _ hrv t0') rfl⟩,
    ⟨rfl, rfl, fun hy =>
      initStep_of_valid S myODE _ (valid_set_y0 myODE _ hrv y0' hy) rfl⟩⟩

/-- C2, at the integrator of the test fixture after three steps with the Cramer solver. -/
theorem setters_reset_regime_witness :
    (testStart 0 0 0 0).Valid testODE.toLinearODE ∧ (testStart 0 0 0 0).stepCount = 0 ∧
      ∃ rk, BDFIntegrator.steps cramerSystem testODE.toLinearODE 3 (testStart 0 0 0 0)
            = some rk ∧ testY0.length = rk.1.N ∧
        (rk.1.set_dt (1 / 10)).stepCount = 0 ∧
        InitStep cramerSystem testODE.toLinearODE (rk.1.set_dt (1 / 10)) ∧
        InitStep cramerSystem testODE.toLinearODE (rk.1.set_t0 7) ∧
        InitStep cramerSystem testODE.toLinearODE (rk.1.set_y0 testY0) := by
  obtain ⟨rk, hk, _, _, hN, _⟩ :=
    steps_summary cramerSystem testODE.toLinearODE (testStart 0 0 0 0)
      (testStart_valid 0 0 0 0) rfl 3
  have hy : testY0.length = rk.1.N := by rw [hN]; rfl
  have h := setters_reset_regime cramerSystem testODE.toLinearODE (testStart 0 0 0 0)
    (testStart_valid 0 0 0 0) rfl 3 rk hk (1 / 10) 7 testY0
  exact ⟨testStart_valid 0 0 0 0, rfl, rk, hk, hy, h.1.1, h.1.2.2, h.2.1.2.2, h.2.2.2.2 hy⟩

/-! ## C3 and C4 — the BDF1 and BDF2 steps -/

/-- The linear system of the BDF1 step is the backward-Euler equation. -/
theorem bdf1_equation (n : Nat) (Am : Matrix (Fin n) (Fin n) ℚ) (h : ℚ) (hh : h ≠ 0)
    (y c z : Fin n → ℚ) :
    (Am - (1 / h) • (1 : Matrix (Fin n) (Fin n) ℚ)).mulVec z = (fun i => -(y i) / h - c i) ↔
      ∀ i, (z i - y i) / h = Am.mulVec z i + c i := by
  rw [Matrix.sub_mulVec, Matrix.smul_mulVec_assoc, Matrix.one_mulVec]
  constructor
  · intro e i
    have := congrFun e i
    simp only [Pi.sub_apply, Pi.smul_apply, smul_eq_mul] at this
    have hA : Am.mulVec z i = -(y i) / h - c i + 1 / h * z i := by linarith
    rw [hA]
    field_simp
    ring
  · intro e
    funext i
    have := e i
    simp only [Pi.sub_apply, Pi.smul_apply, smul_eq_mul]
    have hA : Am.mulVec z i = (z i - y i) / h - c i := by linarith
    rw [hA]
    field_simp
    ring

/-- The linear system of the BDF2 step is the BDF2 equation. -/
theorem bdf2_equation (n : Nat) (Am : Matrix (Fin n) (Fin n) ℚ) (h : ℚ) (hh : h ≠ 0)
    (y yp c z : Fin n → ℚ) :
    (Am - (3 / (2 * h)) • (1 : Matrix (Fin n) (Fin n) ℚ)).mulVec z
        = (fun i => -2 * (y i) / h + yp i / (2 * h) - c i) ↔
      ∀ i, (3 * z i - 4 * y i + yp i) / (2 * h) = Am.mulVec z i + c i := by
  rw [Matrix.sub_mulVec, Matrix.smul_mulVec_assoc, Matrix.one_mulVec]
  constructor
  · intro e i
    have := congrFun e i
    simp only [Pi.sub_apply, Pi.smul_apply, smul_eq_mul] at this
    have hA : Am.mulVec z i
        = -2 * (y i) / h + yp i / (2 * h) - c i + 3 / (2 * h) * z i := by linarith
    rw [hA]
    field_simp
    ring
  · intro e
    funext i
    have := e i
    simp only [Pi.sub_apply, Pi.smul_apply, smul_eq_mul]
    have hA : Am.mulVec z i = (3 * z i - 4 * y i + yp i) / (2 * h) - c i := by linarith
    rw [hA]
    field_simp
    ring

/-- C3. A step with `stepCount = 0`, `h ≠ 0`, an exact solver and `A − (1/h)·I`
nonsingular: the new state is the solution of `(A − (1/h)·I)·y' = rhs` with
`rhs[i] = −y[i]/h − c[i]`, it is the only solution, it satisfies the backward-Euler
equation `(y' − y)/h = A·y' + c`, and afterwards `yprev` is the old `y`, the step counter
is `1` and `t` has grown by `h`. -/
theorem bdf1_step (S : BandedSystem) (myODE : LinearODE) (s : BDFIntegrator)
    (A : sdBandMatrix) (hv : s.Valid myODE) (h0 : s.stepCount = 0) (hA : s.A = some A)
    (hh : s.h ≠ 0) (hS : S.Exact)
    (hdet : (shifted s.N (myODE.get_A A) (1 / s.h)).det ≠ 0) :
    ∃ r, s.step S myODE = some r ∧ r.1.y.length = s.N ∧
      (shifted s.N (myODE.get_A A) (1 / s.h)).mulVec (dvector.toVec s.N r.1.y)
        = (fun i => -(dvector.toVec s.N s.y i) / s.h
            - dvector.toVec s.N (myODE.get_C s.c) i) ∧
      (∀ z : Fin s.N → ℚ,
        (shifted s.N (myODE.get_A A) (1 / s.h)).mulVec z
          = (fun i => -(dvector.toVec s.N s.y i) / s.h
              - dvector.toVec s.N (myODE.get_C s.c) i) →
        z = dvector.toVec s.N r.1.y) ∧
      (∀ i : Fin s.N,
        (dvector.toVec s.N r.1.y i - dvector.toVec s.N s.y i) / s.h
          = ((myODE.get_A A).toMatrix s.N).mulVec (dvector.toVec s.N r.1.y) i
            + dvector.toVec s.N (myODE.get_C s.c) i) ∧
      r.1.yprev = s.y ∧ r.1.stepCount = 1 ∧ r.1.t = s.t + s.h := by
  obtain ⟨M, rhs, hstep, hMN, _, _, hMat, hlen, hget⟩ := step_init_spec S myODE s hv h0 A hA
  have hex := exact_at S hS M s.N hMN rhs (by rw [hMat]; exact hdet) hlen
  rw [hMat] at hex
  have hrhs : dvector.toVec s.N rhs = (fun i => -(dvector.toVec s.N s.y i) / s.h
      - dvector.toVec s.N (myODE.get_C s.c) i) :=
    funext fun i => hget i i.isLt
  rw [hrhs] at hex
  refine ⟨_, hstep, (S.solve_length _ _ _).trans hlen, hex, ?_, ?_, rfl, by simp [h0], rfl⟩
  · intro z hz
    exact solution_unique _ _ hdet _ _ (hz.trans hex.symm)
  · exact (bdf1_equation s.N _ s.h hh _ _ _).mp hex

/-- C3, at the integrator of the test fixture with the Cramer solver. -/
theorem bdf1_step_witness :
    (testStart 0 0 0 0).Valid testODE.toLinearODE ∧ (testStart 0 0 0 0).stepCount = 0 ∧
      (testStart 0 0 0 0).h ≠ 0 ∧ cramerSystem.Exact ∧
      (shifted (testStart 0 0 0 0).N (testODE.toLinearODE.get_A (sdBandMatrix.alloc 5 1 1))
        (1 / (testStart 0 0 0 0).h)).det ≠ 0 ∧
      ∃ r, (testStart 0 0 0 0).step cramerSystem testODE.toLinearODE = some r ∧
        r.1.yprev = testY0 ∧ r.1.stepCount = 1 ∧ r.1.t = 0 + 1 / 5 :=
  have hh : (testStart 0 0 0 0).h ≠ 0 := by decide!
  have hdet : (shifted (testStart 0 0 0 0).N
      (testODE.toLinearODE.get_A (sdBandMatrix.alloc 5 1 1))
      (1 / (testStart 0 0 0 0).h)).det ≠ 0 := by decide!
  ⟨testStart_valid 0 0 0 0, rfl, hh, cramerSystem_exact, hdet,
    (bdf1_step cramerSystem testODE.toLinearODE (testStart 0 0 0 0)
      (sdBandMatrix.alloc 5 1 1) (testStart_valid 0 0 0 0) rfl rfl hh cramerSystem_exact
      hdet).imp fun _ h => ⟨h.1, h.2.2.2.2.2.1, h.2.2.2.2.2.2.1, h.2.2.2.2.2.2.2⟩⟩

/-- C4. A step with `stepCount ≥ 1`, `h ≠ 0`, an exact solver, `A − (3/(2h))·I`
nonsingular and, when `stepCount ≥ 2`, `LU` and `p` holding the factorization of that
matrix: the new state is the solution of `(A − (3/(2h))·I)·y' = rhs` with
`rhs[i] = −2·y[i]/h + yprev[i]/(2h) − c[i]`, it is the only solution, it satisfies the BDF2
equation `(3·y' − 4·y + yprev)/(2h) = A·y' + c`, and afterwards `yprev` is the old `y`, the
step counter has grown by `1` and `t` by `h`. -/
theorem bdf2_step (S : BandedSystem) (myODE : LinearODE) (s : BDFIntegrator)
    (A : sdBandMatrix) (hv : s.Valid myODE) (h1 : 1 ≤ s.stepCount) (hA : s.A = some A)
    (hh : s.h ≠ 0) (hS : S.Exact)
    (hdet : (shifted s.N A (3 / (2 * s.h))).det ≠ 0)
    (hcache : 2 ≤ s.stepCount → ∃ M, M.N = s.N ∧
      M.toMatrix s.N = shifted s.N A (3 / (2 * s.h)) ∧
      s.LU = some (S.BandGBTRF M).1 ∧ s.p = (S.BandGBTRF M).2) :
    ∃ r, s.step S myODE = some r ∧ r.1.y.length = s.N ∧
      (shifted s.N A (3 / (2 * s.h))).mulVec (dvector.toVec s.N r.1.y)
        = (fun i => -2 * (dvector.toVec s.N s.y i) / s.h
            + dvector.toVec s.N s.yprev i / (2 * s.h) - dvector.toVec s.N s.c i) ∧
      (∀ z : Fin s.N → ℚ,
        (shifted s.N A (3 / (2 * s.h))).mulVec z
          = (fun i => -2 * (dvector.toVec s.N s.y i) / s.h
              + dvector.toVec s.N s.yprev i / (2 * s.h) - dvector.toVec s.N s.c i) →
        z = dvector.toVec s.N r.1.y) ∧
      (∀ i : Fin s.N,
        (3 * dvector.toVec s.N r.1.y i - 4 * dvector.toVec s.N s.y i
            + dvector.toVec s.N s.yprev i) / (2 * s.h)
          = (A.toMatrix s.N).mulVec (dvector.toVec s.N r.1.y) i
            + dvector.toVec s.N s.c i) ∧
      r.1.yprev = s.y ∧ r.1.stepCount = s.stepCount + 1 ∧ r.1.t = s.t + s.h ∧
      r.1.A = some A ∧ r.1.c = s.c := by
  obtain ⟨LU, hLU, _⟩ := hv.LU_alloc
  obtain ⟨rhs, hlen, hget, hone, hmore⟩ :=
    step_bdf2_spec S myODE s hv (by omega) A LU hA hLU
  have hrhs : dvector.toVec s.N rhs = (fun i => -2 * (dvector.toVec s.N s.y i) / s.h
      + dvector.toVec s.N s.yprev i / (2 * s.h) - dvector.toVec s.N s.c i) :=
    funext fun i => hget i i.isLt
  by_cases hc : s.stepCount = 1
  · obtain ⟨M, hMN, _, _, hMat, hstep⟩ := hone hc
    have hex := exact_at S hS M s.N hMN rhs (by rw [hMat]; exact hdet) hlen
    rw [hMat, hrhs] at hex
    refine ⟨_, hstep, (S.solve_length _ _ _).trans hlen, hex, ?_, ?_, rfl, rfl, rfl, hA, rfl⟩
    · intro z hz
      exact solution_unique _ _ hdet _ _ (hz.trans hex.symm)
    · exact (bdf2_equation s.N _ s.h hh _ _ _ _).mp hex
  · obtain ⟨M, hMN, hMat, hMLU, hMp⟩ := hcache (by omega)
    have hstep := hmore hc
    rw [hLU] at hMLU
    cases hMLU
    rw [hMp] at hstep
    have hex := exact_at S hS M s.N hMN rhs (by rw [hMat]; exact hdet) hlen
    rw [hMat, hrhs] at hex
    refine ⟨_, hstep, (S.solve_length _ _ _).trans hlen, hex, ?_, ?_, rfl, rfl, rfl, hA, rfl⟩
    · intro z hz
      exact solution_unique _ _ hdet _ _ (hz.trans hex.symm)
    · exact (bdf2_equation s.N _ s.h hh _ _ _ _).mp hex

theorem exampleSteady_valid : exampleSteady.Valid exampleODE :=
  { A_alloc := ⟨exampleA, rfl, rfl, rfl, rfl⟩
    LU_alloc := ⟨exampleM, rfl, rfl, rfl, rfl⟩
    y_length := rfl
    get_A_shape := fun _ => ⟨rfl, rfl, rfl⟩
    get_C_length := fun _ => rfl
    history := fun _ => ⟨rfl, rfl⟩ }

/-- C4, at an integrator in the "Steady" regime with the Cramer solver. -/
theorem bdf2_step_witness :
    exampleSteady.Valid exampleODE ∧ 1 ≤ exampleSteady.stepCount ∧
      exampleSteady.h ≠ 0 ∧ cramerSystem.Exact ∧
      (shifted exampleSteady.N exampleA (3 / (2 * exampleSteady.h))).det ≠ 0 ∧
      (∃ M, M.N = exampleSteady.N ∧
        M.toMatrix exampleSteady.N
          = shifted exampleSteady.N exampleA (3 / (2 * exampleSteady.h)) ∧
        exampleSteady.LU = some (cramerSystem.BandGBTRF M).1 ∧
        exampleSteady.p = (cramerSystem.BandGBTRF M).2) ∧
      ∃ r, exampleSteady.step cramerSystem exampleODE = some r ∧
        r.1.yprev = [1, 2] ∧ r.1.stepCount = 3 ∧ r.1.t = 1 + 1 / 2 :=
  have hh : exampleSteady.h ≠ 0 := by decide!
  have hdet : (shifted exampleSteady.N exampleA (3 / (2 * exampleSteady.h))).det ≠ 0 := by
    decide!
  have hcache : ∃ M, M.N = exampleSteady.N ∧
      M.toMatrix exampleSteady.N
        = shifted exampleSteady.N exampleA (3 / (2 * exampleSteady.h)) ∧
      exampleSteady.LU = some (cramerSystem.BandGBTRF M).1 ∧
      exampleSteady.p = (cramerSystem.BandGBTRF M).2 :=
    ⟨exampleM, rfl, by decide!, rfl, rfl⟩
  ⟨exampleSteady_valid, by decide, hh, cramerSystem_exact, hdet, hcache,
    (bdf2_step cramerSystem exampleODE exampleSteady exampleA exampleSteady_valid
      (by decide) rfl hh cramerSystem_exact hdet (fun _ => hcache)).imp
      fun _ h => ⟨h.1, h.2.2.2.2.2.1, h.2.2.2.2.2.2.1, h.2.2.2.2.2.2.2.1⟩⟩

/-! ## C5 — one explicit Euler step -/

theorem getD_zipWith_add (y v : dvector) (i : Nat) (hy : i < y.length) (hv : i < v.length) :
    (List.zipWith (fun a b => a + b) y v).getD i 0 = y.getD i 0 + v.getD i 0 := by
  have hz : i < (List.zipWith (fun a b => a + b) y v).length := by
    rw [List.length_zipWith]; omega
  rw [List.getD_eq_getElem _ _ hz, List.getD_eq_getElem _ _ hy, List.getD_eq_getElem _ _ hv,
    List.getElem_zipWith]

theorem getD_scale (a : ℚ) (v : dvector) (i : Nat) :
    (dvector.scale a v).getD i 0 = a * v.getD i 0 := by
  have := List.getD_map (n := i) v 0 (fun x => a * x)
  rw [mul_zero] at this
  exact this

/-- C5. `ExplicitIntegrator::step` with a right-hand side that returns one derivative per
component: afterwards `ydot = f(t, y)` for the old `t` and `y`, `y[i]` has grown by
`h·ydot[i]` for every `i`, `t` has grown by `h`, and `h` and `N` are unchanged. -/
theorem explicit_step (myODE : ODE) (s : ExplicitIntegrator)
    (hf : (myODE.f s.t s.y).length = s.y.length) :
    (s.step myODE).ydot = myODE.f s.t s.y ∧
      (s.step myODE).y.length = s.y.length ∧
      (∀ i, i < s.y.length →
        (s.step myODE).y.getD i 0 = s.y.getD i 0 + s.h * (s.step myODE).ydot.getD i 0) ∧
      (s.step myODE).t = s.t + s.h ∧ (s.step myODE).h = s.h ∧ (s.step myODE).N = s.N := by
  refine ⟨rfl, ?_, ?_, rfl, rfl, rfl⟩
  · show (List.zipWith _ s.y (List.map _ (myODE.f s.t s.y))).length = s.y.length
    rw [List.length_zipWith, List.length_map, hf, Nat.min_self]
  · intro i hi
    show (dvector.addAssign s.y (dvector.scale s.h (myODE.f s.t s.y))).getD i 0 = _
    unfold dvector.addAssign
    rw [getD_zipWith_add _ _ i hi (by unfold dvector.scale; rw [List.length_map, hf]; exact hi),
      getD_scale]
    rfl

/-- C5, at the decay problem with `h = 1/100`. -/
theorem explicit_step_witness :
    (decayODE.f (decayStart (1 / 100)).t (decayStart (1 / 100)).y).length
        = (decayStart (1 / 100)).y.length ∧
      ((decayStart (1 / 100)).step decayODE).ydot = [-1] ∧
      ((decayStart (1 / 100)).step decayODE).y.getD 0 0 = 1 + 1 / 100 * (-1) ∧
      ((decayStart (1 / 100)).step decayODE).t = 0 + 1 / 100 :=
  have h := explicit_step decayODE (decayStart (1 / 100)) rfl
  ⟨rfl, h.1, (h.2.2.1 0 (by decide)).trans (by rw [h.1]; rfl), h.2.2.2.1⟩

/-! ## C6 and C7 — `step_to_time` -/

theorem iterate_step_t_h (myODE : ODE) (s : ExplicitIntegrator) (k : Nat) :
    ((ExplicitIntegrator.step myODE)^[k] s).t = s.t + k * s.h ∧
      ((ExplicitIntegrator.step myODE)^[k] s).h = s.h := by
  induction k with
  | zero => simp
  | succ n ih =>
    rw [Function.iterate_succ_apply']
    constructor
    · show ((ExplicitIntegrator.step myODE)^[n] s).t + ((ExplicitIntegrator.step myODE)^[n] s).h
        = _
      rw [ih.1, ih.2]; push_cast; ring
    · exact ih.2

/-- The loop runs exactly `k` times when the time passes `tEnd` at the `k`-th step and not
before. -/
theorem step_to_time_run (myODE : ODE) (tEnd : ℚ) (k : Nat) :
    ∀ (s : ExplicitIntegrator) (fuel : Nat),
      (∀ m : Nat, m < k → s.t + m * s.h < tEnd) → tEnd ≤ s.t + k * s.h → k ≤ fuel →
      s.step_to_time myODE tEnd fuel = some ((ExplicitIntegrator.step myODE)^[k] s, k) := by
  induction k with
  | zero =>
    intro s fuel _ hge _
    have hnot : ¬ s.t < tEnd := by
      have : tEnd ≤ s.t := by simpa using hge
      exact not_lt.mpr this
    cases fuel <;> simp [ExplicitIntegrator.step_to_time, hnot]
  | succ n ih =>
    intro s fuel hlt hge hfuel
    have hnow : s.t < tEnd := by simpa using hlt 0 (Nat.succ_pos n)
    obtain ⟨f, rfl⟩ : ∃ f, fuel = f + 1 := ⟨fuel - 1, by omega⟩
    have ht1 : (s.step myODE).t = s.t + s.h := rfl
    have hh1 : (s.step myODE).h = s.h := rfl
    have hrec := ih (s.step myODE) f
      (fun m hm => by
        have := hlt (m + 1) (Nat.succ_lt_succ hm)
        rw [ht1, hh1]; push_cast at this; linarith)
      (by rw [ht1, hh1]; push_cast at hge; linarith)
      (by omega)
    simp only [ExplicitIntegrator.step_to_time, hnow, if_true, hrec, Option.map_some',
      Function.iterate_succ_apply]

/-- With `h ≤ 0` and `t < tEnd` the loop is still running after any number of steps. -/
theorem step_to_time_diverges (myODE : ODE) (tEnd : ℚ) (fuel : Nat) :
    ∀ s : ExplicitIntegrator, s.h ≤ 0 → s.t < tEnd →
      s.step_to_time myODE tEnd fuel = none := by
  induction fuel with
  | zero => intro s _ ht; simp [ExplicitIntegrator.step_to_time, ht]
  | succ f ih =>
    intro s hh ht
    have ht1 : (s.step myODE).t < tEnd := by
      show s.t + s.h < tEnd
      linarith
    simp [ExplicitIntegrator.step_to_time, ht, ih (s.step myODE) hh ht1]

/-- The least number of whole steps of size `h > 0` that reach `tEnd`. -/
theorem least_steps (t0 h tEnd : ℚ) (hpos : 0 < h) :
    ∃ k : Nat, tEnd ≤ t0 + k * h ∧ ∀ m : Nat, m < k → t0 + m * h < tEnd := by
  refine ⟨⌈(tEnd - t0) / h⌉₊, ?_, ?_⟩
  · have := Nat.le_ceil ((tEnd - t0) / h)
    rw [div_le_iff₀ hpos] at this
    linarith
  · intro m hm
    have := Nat.lt_ceil.mp hm
    rw [lt_div_iff₀ hpos] at this
    linarith

/-- C6. `step_to_time(tEnd)` with `h > 0`: the loop makes exactly `k` calls of `step`,
where `k` is the least natural number with `t0 + k·h ≥ tEnd` (`k = 0` when `t0 ≥ tEnd`);
every call advances `t` by `h`, the final time is `t0 + k·h`, it lies in
`[tEnd, tEnd + h)` when `t0 < tEnd`, and it is strictly beyond `tEnd` when `tEnd − t0` is
no integer multiple of `h`. -/
theorem step_to_time_whole_steps (myODE : ODE) (tEnd : ℚ) (s : ExplicitIntegrator)
    (hpos : 0 < s.h) :
    ∃ k : Nat,
      tEnd ≤ s.t + k * s.h ∧ (∀ m : Nat, tEnd ≤ s.t + m * s.h → k ≤ m) ∧
      (tEnd ≤ s.t → k = 0) ∧
      (∀ fuel, k ≤ fuel →
        s.step_to_time myODE tEnd fuel = some ((ExplicitIntegrator.step myODE)^[k] s, k)) ∧
      ((ExplicitIntegrator.step myODE)^[k] s).t = s.t + k * s.h ∧
      (∀ j, j < k →
        ((ExplicitIntegrator.step myODE)^[j + 1] s).t
          - ((ExplicitIntegrator.step myODE)^[j] s).t = s.h) ∧
      (s.t < tEnd → tEnd ≤ ((ExplicitIntegrator.step myODE)^[k] s).t ∧
        ((ExplicitIntegrator.step myODE)^[k] s).t < tEnd + s.h) ∧
      ((¬ ∃ m : ℤ, tEnd - s.t = m * s.h) →
        tEnd < ((ExplicitIntegrator.step myODE)^[k] s).t) := by
  obtain ⟨k, hge, hlt⟩ := least_steps s.t s.h tEnd hpos
  have hleast : ∀ m : Nat, tEnd ≤ s.t + m * s.h → k ≤ m := by
    intro m hm
    by_contra hc
    exact absurd (hlt m (Nat.lt_of_not_le hc)) (not_lt.mpr hm)
  have hfin := (iterate_step_t_h myODE s k).1
  refine ⟨k, hge, hleast, ?_, ?_, hfin, ?_, ?_, ?_⟩
  · intro h0
    have := hleast 0 (by simpa using h0)
    omega
  · intro fuel hfuel
    exact step_to_time_run myODE tEnd k s fuel hlt hge hfuel
  · intro j _
    rw [(iterate_step_t_h myODE s (j + 1)).1, (iterate_step_t_h myODE s j).1]
    push_cast
    ring
  · intro hbefore
    rw [hfin]
    refine ⟨hge, ?_⟩
    obtain ⟨n, rfl⟩ : ∃ n, k = n + 1 := by
      refine ⟨k - 1, ?_⟩
      have : k ≠ 0 := by
        intro hk
        rw [hk] at hge
        have : tEnd ≤ s.t := by simpa using hge
        exact absurd hbefore (not_lt.mpr this)
      omega
    have := hlt n (Nat.lt_succ_self n)
    push_cast
    linarith
  · intro hdiv
    rw [hfin]
    rcases lt_or_eq_of_le hge with hlt' | heq
    · exact hlt'
    · exact absurd ⟨(k : ℤ), by push_cast; linarith⟩ hdiv

/-- C6, at the decay problem with `h = 3/10` and `tEnd = 1`: the loop stops beyond `1`
and before `1 + 3/10`. -/
theorem step_to_time_whole_steps_witness :
    0 < (decayStart (3 / 10)).h ∧
      ∃ k : Nat,
        (∀ fuel, k ≤ fuel →
          (decayStart (3 / 10)).step_to_time decayODE 1 fuel
            = some ((ExplicitIntegrator.step decayODE)^[k] (decayStart (3 / 10)), k)) ∧
        (1 : ℚ) < ((ExplicitIntegrator.step decayODE)^[k] (decayStart (3 / 10))).t ∧
        ((ExplicitIntegrator.step decayODE)^[k] (decayStart (3 / 10))).t < 1 + 3 / 10 := by
  have hpos : 0 < (decayStart (3 / 10)).h := by decide!
  obtain ⟨k, _, _, _, hrun, _, _, hin, hstrict⟩ :=
    step_to_time_whole_steps decayODE 1 (decayStart (3 / 10)) hpos
  refine ⟨hpos, k, hrun, hstrict ?_, (hin (by decide!)).2⟩
  rintro ⟨m, hm⟩
  have h1 : (3 : ℚ) * m = 10 := by
    have : (decayStart (3 / 10)).t = 0 ∧ (decayStart (3 / 10)).h = 3 / 10 := ⟨rfl, rfl⟩
    rw [this.1, this.2] at hm
    linarith
  have h2 : (3 : ℤ) * m = 10 := by exact_mod_cast h1
  omega

theorem decay_iterate (y0 h t0 : ℚ) (N0 : Nat) (ydot0 : dvector) (n : Nat) :
    ((ExplicitIntegrator.step decayODE)^[n]
        { t := t0, h := h, y := [y0], N := N0, ydot := ydot0 }).y = [(1 - h) ^ n * y0] ∧
      ((ExplicitIntegrator.step decayODE)^[n]
        { t := t0, h := h, y := [y0], N := N0, ydot := ydot0 }).h = h := by
  induction n with
  | zero => simp
  | succ k ih =>
    rw [Function.iterate_succ_apply']
    generalize (ExplicitIntegrator.step decayODE)^[k]
      { t := t0, h := h, y := [y0], N := N0, ydot := ydot0 } = sk at ih ⊢
    obtain ⟨hy, hh⟩ := ih
    refine ⟨?_, hh⟩
    show dvector.addAssign sk.y (dvector.scale sk.h (decayODE.f sk.t sk.y)) = _
    rw [hy, hh]
    simp only [decayODE, dvector.addAssign, dvector.scale, List.map_cons, List.map_nil,
      List.zipWith_cons_cons, List.zipWith_nil_right]
    congr 1
    ring

/-- C8. Explicit Euler on the scalar decay `f(t, y) = −y`: after `n` calls of `step` the
state is `(1 − h)^n · y0` and the time is `t0 + n·h`; with `y0 = 1`, `h = 1/100` and
`n = 100` the state is `(99/100)^100`. -/
theorem explicit_euler_decay :
    (∀ (y0 h t0 : ℚ) (N0 : Nat) (ydot0 : dvector) (n : Nat),
      ((ExplicitIntegrator.step decayODE)^[n]
          { t := t0, h := h, y := [y0], N := N0, ydot := ydot0 }).y = [(1 - h) ^ n * y0] ∧
        ((ExplicitIntegrator.step decayODE)^[n]
          { t := t0, h := h, y := [y0], N := N0, ydot := ydot0 }).t = t0 + n * h) ∧
      ((ExplicitIntegrator.step decayODE)^[100] (decayStart (1 / 100))).y
        = [(99 / 100) ^ 100] := by
  constructor
  · intro y0 h t0 N0 ydot0 n
    exact ⟨(decay_iterate y0 h t0 N0 ydot0 n).1, (iterate_step_t_h decayODE _ n).1⟩
  · have := (decay_iterate 1 (1 / 100) 0 1 [0] 100).1
    have e : (1 - 1 / 100 : ℚ) ^ 100 * 1 = (99 / 100) ^ 100 := by norm_num
    rw [e] at this
    exact this

/-! ## C10 — the collaborator is queried once per session -/

/-- A step with `stepCount ≠ 0` does not depend on the collaborator. -/
theorem step_collaborator_free (S : BandedSystem) (ode1 ode2 : LinearODE)
    (s : BDFIntegrator) (h : s.stepCount ≠ 0) : s.step S ode1 = s.step S ode2 := by
  unfold BDFIntegrator.step
  cases s.A <;> cases s.LU <;> simp only [h, if_false]

/-- C10. In a valid session of `n ≥ 1` steps started with `stepCount = 0`, `get_A` and
`get_C` are each called exactly once, both in the first `step`; every later `step` makes
no call to the collaborator, does not depend on it, and works with the `A` and `c` stored
by the first. -/
theorem collaborator_queried_once (S : BandedSystem) (myODE : LinearODE)
    (s : BDFIntegrator) (A : sdBandMatrix) (hv : s.Valid myODE) (h0 : s.stepCount = 0)
    (hA : s.A = some A) :
    (∃ r1, s.step S myODE = some r1 ∧
        r1.2.countP Call.isGetA = 1 ∧ r1.2.countP Call.isGetC = 1 ∧
        r1.1.A = some (myODE.get_A A) ∧ r1.1.c = myODE.get_C s.c) ∧
    (∀ k, 1 ≤ k → ∃ rk r, BDFIntegrator.steps S myODE k s = some rk ∧
        rk.1.step S myODE = some r ∧
        r.2.countP Call.isGetA = 0 ∧ r.2.countP Call.isGetC = 0 ∧
        (∀ ode2, rk.1.step S ode2 = rk.1.step S myODE) ∧
        rk.1.A = some (myODE.get_A A) ∧ rk.1.c = myODE.get_C s.c ∧
        r.1.A = some (myODE.get_A A) ∧ r.1.c = myODE.get_C s.c) ∧
    (∀ n, 1 ≤ n → ∃ r, BDFIntegrator.steps S myODE n s = some r ∧
        r.2.countP Call.isGetA = 1 ∧ r.2.countP Call.isGetC = 1) := by
  refine ⟨?_, ?_, ?_⟩
  · obtain ⟨r, hr, _, _, _, _, _, _, _, _, hA1, hc1, _, hGA, hGC⟩ :=
      step_summary S myODE s hv
    rw [if_pos h0] at hA1 hc1 hGA hGC
    exact ⟨r, hr, hGA, hGC, by rw [hA1, hA]; rfl, hc1⟩
  · intro k hk
    obtain ⟨rk, hrk, hvk, hck, _, _, _, _, _, hAc, _, _, _⟩ :=
      steps_summary S myODE s hv h0 k
    obtain ⟨hAk, hcK⟩ := hAc (by omega)
    rw [hA] at hAk
    have hne : rk.1.stepCount ≠ 0 := by rw [hck]; omega
    obtain ⟨r, hr, _, _, _, _, _, _, _, _, hA1, hc1, _, hGA, hGC⟩ :=
      step_summary S myODE rk.1 hvk
    rw [if_neg hne] at hA1 hc1 hGA hGC
    exact ⟨rk, r, hrk, hr, hGA, hGC,
      fun ode2 => step_collaborator_free S ode2 myODE rk.1 hne, hAk, hcK,
      hA1.trans hAk, hc1.trans hcK⟩
  · intro n hn
    obtain ⟨r, hr, _, _, _, _, _, _, _, _, _, hGA, hGC⟩ := steps_summary S myODE s hv h0 n
    exact ⟨r, hr, by rw [hGA]; omega, by rw [hGC]; omega⟩

/-- C10, at the integrator of the test fixture with the Cramer solver: six steps query
`A` once and `c` once. -/
theorem collaborator_queried_once_witness :
    (testStart 0 0 0 0).Valid testODE.toLinearODE ∧ (testStart 0 0 0 0).stepCount = 0 ∧
      (testStart 0 0 0 0).A = some (sdBandMatrix.alloc 5 1 1) ∧
      ∃ r, BDFIntegrator.steps cramerSystem testODE.toLinearODE 6 (testStart 0 0 0 0) = some r ∧
        r.2.countP Call.isGetA = 1 ∧ r.2.countP Call.isGetC = 1 :=
  ⟨testStart_valid 0 0 0 0, rfl, rfl,
    (collaborator_queried_once cramerSystem testODE.toLinearODE (testStart 0 0 0 0)
      (sdBandMatrix.alloc 5 1 1) (testStart_valid 0 0 0 0) rfl rfl).2.2 6 (by decide)⟩

/-! ## Auxiliary facts: the value of a step with an exact solver -/

theorem eq_of_toVec_eq (n : Nat) (u v : dvector) (hu : u.length = n) (hv : v.length = n)
    (h : dvector.toVec n u = dvector.toVec n v) : u = v := by
  apply list_ext_getD u v (hu.trans hv.symm)
  intro i
  by_cases hi : i < n
  · exact congrFun h ⟨i, hi⟩
  · rw [List.getD_eq_default _ _ (by omega), List.getD_eq_default _ _ (by omega)]

/-- The value of the step with `stepCount = 0`: a vector that solves the BDF1 system is the
new state, whatever exact solver is used. -/
theorem init_value (S : BandedSystem) (hS : S.Exact) (myODE : LinearODE)
    (s : BDFIntegrator) (A : sdBandMatrix) (n : Nat) (hval : ℚ) (yv Y : dvector)
    (hv : s.Valid myODE) (h0 : s.stepCount = 0) (hA : s.A = some A)
    (hN : s.N = n) (hh : s.h = hval) (hy : s.y = yv) (hYlen : Y.length = n)
    (hdet : (shifted n (myODE.get_A A) (1 / hval)).det ≠ 0)
    (hY : (shifted n (myODE.get_A A) (1 / hval)).mulVec (dvector.toVec n Y)
      = (fun i => -(dvector.toVec n yv i) / hval
          - dvector.toVec n (myODE.get_C s.c) i)) :
    ∃ r, s.step S myODE = some r ∧ r.1.Valid myODE ∧ r.1.stepCount = 1 ∧
      r.1.A = some (myODE.get_A A) ∧ r.1.c = myODE.get_C s.c ∧ r.1.N = n ∧
      r.1.h = hval ∧ r.1.y = Y ∧ r.1.yprev = yv := by
  subst hN hh hy
  obtain ⟨r, hr, hrv, hcnt, hN', hh', _, _, _, hyp, hA1, hc1, _⟩ :=
    step_summary S myODE s hv
  obtain ⟨M, rhs, hstep, hMN, _, _, hMat, hlen, hget⟩ := step_init_spec S myODE s hv h0 A hA
  have hex := exact_at S hS M s.N hMN rhs (by rw [hMat]; exact hdet) hlen
  rw [hMat] at hex
  have hrhs : dvector.toVec s.N rhs = (fun i => -(dvector.toVec s.N s.y i) / s.h
      - dvector.toVec s.N (myODE.get_C s.c) i) :=
    funext fun i => hget i i.isLt
  rw [hrhs, ← hY] at hex
  have hval := solution_unique _ _ hdet _ _ hex
  rw [hstep] at hr
  cases hr
  rw [if_pos h0] at hA1 hc1
  refine ⟨_, hstep, hrv, by rw [hcnt, h0], by rw [hA1, hA]; rfl, hc1, hN', hh', ?_, hyp⟩
  exact eq_of_toVec_eq s.N _ _ ((S.solve_length _ _ _).trans hlen) hYlen hval

/-- The value of a step with `stepCount ≥ 1`: a vector that solves the BDF2 system is the
new state, whatever exact solver is used, and the factorization is cached afterwards. -/
theorem bdf2_value (S : BandedSystem) (hS : S.Exact) (myODE : LinearODE)
    (s : BDFIntegrator) (A : sdBandMatrix) (n : Nat) (hval : ℚ) (yv ypv cv Y : dvector)
    (hv : s.Valid myODE) (h1 : 1 ≤ s.stepCount) (hA : s.A = some A)
    (hcache : 2 ≤ s.stepCount → Cached S s A)
    (hN : s.N = n) (hh : s.h = hval) (hy : s.y = yv) (hyp : s.yprev = ypv) (hc : s.c = cv)
    (hYlen : Y.length = n)
    (hdet : (shifted n A (3 / (2 * hval))).det ≠ 0)
    (hY : (shifted n A (3 / (2 * hval))).mulVec (dvector.toVec n Y)
      = (fun i => -2 * (dvector.toVec n yv i) / hval
          + dvector.toVec n ypv i / (2 * hval) - dvector.toVec n cv i)) :
    ∃ r, s.step S myODE = some r ∧ r.1.Valid myODE ∧ r.1.stepCount = s.stepCount + 1 ∧
      r.1.A = some A ∧ r.1.c = cv ∧ r.1.N = n ∧ r.1.h = hval ∧ r.1.y = Y ∧
      r.1.yprev = yv ∧ Cached S r.1 A := by
  subst hN hh hy hyp hc
  obtain ⟨r, hr, hrv, hcnt, hN', hh', _, _, _, hyp', hA1, hc1, _⟩ :=
    step_summary S myODE s hv
  have hne : s.stepCount ≠ 0 := by omega
  rw [if_neg hne] at hA1 hc1
  obtain ⟨LU, hLU, _⟩ := hv.LU_alloc
  obtain ⟨rhs, hlen, hget, hone, hmore⟩ := step_bdf2_spec S myODE s hv hne A LU hA hLU
  have hrhs : dvector.toVec s.N rhs = (fun i => -2 * (dvector.toVec s.N s.y i) / s.h
      + dvector.toVec s.N s.yprev i / (2 * s.h) - dvector.toVec s.N s.c i) :=
    funext fun i => hget i i.isLt
  have key : ∃ M, M.N = s.N ∧ M.toMatrix s.N = shifted s.N A (3 / (2 * s.h)) ∧
      r.1.LU = some (S.BandGBTRF M).1 ∧ r.1.p = (S.BandGBTRF M).2 ∧
      r.1.y = S.BandGBTRS (S.BandGBTRF M).1 (S.BandGBTRF M).2 rhs := by
    by_cases hc : s.stepCount = 1
    · obtain ⟨M, hMN, _, _, hMat, hstep⟩ := hone hc
      rw [hstep] at hr
      cases hr
      exact ⟨M, hMN, hMat, rfl, rfl, rfl⟩
    · obtain ⟨M, hMN, hMat, hMLU, hMp⟩ := hcache (by omega)
      have hstep := hmore hc
      rw [hstep] at hr
      cases hr
      rw [hLU] at hMLU
      cases hMLU
      exact ⟨M, hMN, hMat, rfl, hMp, by rw [hMp]⟩
  obtain ⟨M, hMN, hMat, kLU, kp, ky⟩ := key
  have hex := exact_at S hS M s.N hMN rhs (by rw [hMat]; exact hdet) hlen
  rw [hMat, hrhs, ← hY, ← ky] at hex
  have hval := solution_unique _ _ hdet _ _ hex
  refine ⟨r, hr, hrv, hcnt, hA1.trans hA, hc1, hN', hh', ?_, hyp', ?_⟩
  · exact eq_of_toVec_eq s.N _ _ (by rw [ky]; exact (S.solve_length _ _ _).trans hlen)
      hYlen hval
  · exact ⟨M, hMN.trans hN'.symm, by rw [hN', hh']; exact hMat, kLU, kp⟩

/-! ## C9 — the golden trace of the tridiagonal test -/

/-- The uninitialised members of a fresh integrator do not reach the test: they are all
overwritten by `resize`, `set_y0` and `initialize`. -/
theorem testStart_irrelevant (h0 : ℚ) (N0 upper0 lower0 : Nat) :
    testStart h0 N0 upper0 lower0 = testStart 0 0 0 0 := rfl

theorem test_det1 : (shifted 5 testA (1 / (1 / 5))).det ≠ 0 := by decide!

theorem test_det2 : (shifted 5 testA (3 / (2 * (1 / 5)))).det ≠ 0 := by decide!

set_option maxRecDepth 100000 in
theorem bdfExact_first :
    (shifted 5 (testODE.toLinearODE.get_A (sdBandMatrix.alloc 5 1 1)) (1 / (1 / 5))).mulVec
        (dvector.toVec 5 (bdfExact.getD 1 []))
      = (fun i => -(dvector.toVec 5 testY0 i) / (1 / 5)
          - dvector.toVec 5 (testODE.toLinearODE.get_C (testStart 0 0 0 0).c) i) := by
  decide!

theorem bdfExact_chain : BDF2Chain bdfExact := by decide!

/-- One BDF2 step of the test session towards a vector that solves its linear system. -/
theorem testState_step (S : BandedSystem) (hS : S.Exact) (s : BDFIntegrator) (j : Nat)
    (yv ypv Y : dvector) (hs : TestState S s j yv ypv) (hj : 1 ≤ j) (hYlen : Y.length = 5)
    (hY : (shifted 5 testA (3 / (2 * (1 / 5)))).mulVec (dvector.toVec 5 Y)
      = (fun i => -2 * (dvector.toVec 5 yv i) / (1 / 5)
          + dvector.toVec 5 ypv i / (2 * (1 / 5)) - dvector.toVec 5 testODE.k_ i)) :
    ∃ r, s.step S testODE.toLinearODE = some r ∧ TestState S r.1 (j + 1) Y yv := by
  obtain ⟨hv, hcnt, hA, hc, hN, hh, hy, hyp, hcache⟩ := hs
  obtain ⟨r, hr, hrv, hrc, hrA, hrk, hrN, hrh, hry, hryp, hrcache⟩ :=
    bdf2_value S hS testODE.toLinearODE s testA 5 (1 / 5) yv ypv testODE.k_ Y hv
      (by rw [hcnt]; exact hj) hA (fun h2 => hcache (by rw [← hcnt]; exact h2)) hN hh hy hyp
      hc hYlen test_det2 hY
  exact ⟨r, hr, hrv, by rw [hrc, hcnt], hrA, hrk, hrN, hrh, hry, hryp, fun _ => hrcache⟩

set_option maxRecDepth 100000 in
/-- The steps of `BDFIntegrator::step` alone on the test problem, with any exact solver:
after `m + 1 ≤ 5` calls the state is row `m + 1` of `bdfExact`. -/
theorem test_run (S : BandedSystem) (hS : S.Exact) (m : Nat) (hm : m + 1 ≤ 5) :
    ∃ R, BDFIntegrator.steps S testODE.toLinearODE (m + 1) (testStart 0 0 0 0) = some R ∧
      TestState S R.1 (m + 1) (bdfExact.getD (m + 1) []) (bdfExact.getD m []) := by
  induction m with
  | zero =>
    have e1 : (testStart 0 0 0 0).stepCount = 0 := rfl
    have e2 : (testStart 0 0 0 0).A = some (sdBandMatrix.alloc 5 1 1) := rfl
    have e3 : (testStart 0 0 0 0).N = 5 := rfl
    have e4 : (testStart 0 0 0 0).h = 1 / 5 := rfl
    have e5 : (testStart 0 0 0 0).y = testY0 := rfl
    have e6 : (bdfExact.getD 1 []).length = 5 := rfl
    obtain ⟨r, hr, hrv, hrc, hrA, hrk, hrN, hrh, hry, hryp⟩ :=
      init_value S hS testODE.toLinearODE (testStart 0 0 0 0) (sdBandMatrix.alloc 5 1 1) 5
        (1 / 5) testY0 (bdfExact.getD 1 []) (testStart_valid 0 0 0 0) e1 e2 e3 e4 e5 e6
        test_det1 bdfExact_first
    refine ⟨(r.1, [] ++ r.2), steps_succ S _ 0 _ (testStart 0 0 0 0, []) r rfl hr, hrv, hrc,
      hrA, hrk, hrN, hrh, hry, hryp, fun h => absurd h (by decide)⟩
  | succ n ih =>
    obtain ⟨R, hR, hs⟩ := ih (by omega)
    obtain ⟨hlen, hY⟩ := bdfExact_chain n (by
      have : bdfExact.length = 6 := rfl
      omega)
    obtain ⟨r, hr, hs'⟩ :=
      testState_step S hS R.1 (n + 1) _ _ (bdfExact.getD (n + 2) []) hs (by omega) hlen hY
    exact ⟨(r.1, R.2 ++ r.2), steps_succ S _ (n + 1) _ R r hR hr, hs'⟩

/-- One BDF1 step of size `h`, as `BDFIntegrator::step` takes it, does not give row `1` of
`soln`: with the exact Cramer solver the state after one call on the test problem has
`5343/3220 ≈ 1.6593` in component `2`, where the table has `1.6120`. -/
theorem bdf_single_step_row1 :
    ∃ R, BDFIntegrator.steps cramerSystem testODE.toLinearODE 1 (testStart 0 0 0 0) = some R ∧
      R.1.y.getD 2 0 = 5343 / 3220 ∧
      (1 / 10 ^ 10 : ℚ) < |R.1.y.getD 2 0 - (soln.getD 1 []).getD 2 0| := by
  obtain ⟨R, hR, hs⟩ := test_run cramerSystem cramerSystem_exact 0 (by decide)
  have hy : R.1.y = bdfExact.getD 1 [] := hs.2.2.2.2.2.2.1
  refine ⟨R, hR, ?_, ?_⟩
  · rw [hy]; decide!
  · rw [hy]; decide!

/-- The bookkeeping of any step that returns, valid session or not. -/
theorem step_bookkeeping (S : BandedSystem) (myODE : LinearODE) (s : BDFIntegrator)
    (r : BDFIntegrator × List Call) (h : s.step S myODE = some r) :
    r.1.stepCount = s.stepCount + 1 ∧ r.1.t = s.t + s.h ∧ r.1.h = s.h ∧ r.1.N = s.N ∧
      r.1.upper_bw = s.upper_bw ∧ r.1.lower_bw = s.lower_bw ∧ r.1.yprev = s.y := by
  unfold BDFIntegrator.step at h
  split at h
  · split at h
    · dsimp only at h
      obtain ⟨M, _, h⟩ := Option.bind_eq_some.mp h
      obtain ⟨rhs, _, h⟩ := Option.bind_eq_some.mp h
      cases h
      exact ⟨rfl, rfl, rfl, rfl, rfl, rfl, rfl⟩
    · dsimp only at h
      obtain ⟨F, _, h⟩ := Option.bind_eq_some.mp h
      obtain ⟨rhs, _, h⟩ := Option.bind_eq_some.mp h
      cases h
      exact ⟨rfl, rfl, rfl, rfl, rfl, rfl, rfl⟩
  · cases h

/-- Copying the whole band of a matrix of the same size overwrites every position of the
target: the result depends on the target's shape only. -/
theorem BandCopy_target (A B B' : sdBandMatrix) (hAN : A.N = B.N) (hN : B.N = B'.N)
    (hu : B.upper_bw = B'.upper_bw) (hl : B.lower_bw = B'.lower_bw) :
    BandCopy A B B.upper_bw B.lower_bw = BandCopy A B' B.upper_bw B.lower_bw := by
  unfold BandCopy
  rw [sdBandMatrix.mk.injEq]
  refine ⟨hN, hu, hl, ?_⟩
  dsimp only
  rw [← hN, ← hu, ← hl]
  apply List.map_congr_left
  intro i hi
  apply List.map_congr_left
  intro k hk
  have hi' : i < B.N := List.mem_range.mp hi
  have hk' : k < B.upper_bw + B.lower_bw + 1 := List.mem_range.mp hk
  rw [if_pos ⟨by omega, by omega, by omega⟩, if_pos ⟨by omega, by omega, by omega⟩]

/-! ## C11 — the dimension invariant -/

/-- Every state of a session is valid. -/
theorem session_valid (S : BandedSystem) (myODE : LinearODE) (hA : myODE.KeepsShape)
    (s : BDFIntegrator) (hs : Session S myODE s) : s.Valid myODE := by
  induction hs with
  | start s0 N upper lower y0 hy hC => exact valid_set_size_set_y0 myODE s0 N upper lower y0 hy hA hC
  | set_y0 s y0 _ hy ih => exact valid_set_y0 myODE s ih y0 hy
  | set_t0 s t0 _ ih => exact valid_set_t0 myODE s ih t0
  | set_dt s h _ ih => exact valid_set_dt myODE s ih h
  | step s r _ hr ih =>
    obtain ⟨r', hr', hv, _⟩ := step_summary S myODE s ih
    rw [hr] at hr'
    cases hr'
    exact hv

/-- The pivots after a step of a valid session: `N` fresh ones, or the old ones when the
factorization is reused. -/
theorem step_pivots (S : BandedSystem) (myODE : LinearODE) (s : BDFIntegrator)
    (hv : s.Valid myODE) :
    ∃ r, s.step S myODE = some r ∧ r.1.Valid myODE ∧
      (r.1.p.length = s.N ∨ (2 ≤ s.stepCount ∧ r.1.p = s.p)) := by
  obtain ⟨A, hA, _⟩ := hv.A_alloc
  obtain ⟨LU, hLU, _⟩ := hv.LU_alloc
  obtain ⟨r, hr, hrv, _⟩ := step_summary S myODE s hv
  refine ⟨r, hr, hrv, ?_⟩
  by_cases h0 : s.stepCount = 0
  · obtain ⟨M, rhs, hstep, hMN, _⟩ := step_init_spec S myODE s hv h0 A hA
    rw [hstep] at hr
    cases hr
    exact Or.inl ((S.pivot_length M).trans hMN)
  · obtain ⟨rhs, _, _, hone, hmore⟩ := step_bdf2_spec S myODE s hv h0 A LU hA hLU
    by_cases h1 : s.stepCount = 1
    · obtain ⟨M, hMN, _, _, _, hstep⟩ := hone h1
      rw [hstep] at hr
      cases hr
      exact Or.inl ((S.pivot_length M).trans hMN)
    · have hstep := hmore h1
      rw [hstep] at hr
      cases hr
      exact Or.inr ⟨by omega, rfl⟩

/-- A step of a valid session establishes the dimension invariant, provided the pivots
had length `N` whenever they are reused. -/
theorem step_dimInv (S : BandedSystem) (myODE : LinearODE) (s : BDFIntegrator)
    (hv : s.Valid myODE) (hp : 2 ≤ s.stepCount → s.p.length = s.N) :
    ∃ r, s.step S myODE = some r ∧ r.1.Valid myODE ∧ DimInv r.1 := by
  obtain ⟨r, hr, hrv, hpiv⟩ := step_pivots S myODE s hv
  obtain ⟨hc, _, _, hN, _, _, hyp⟩ := step_bookkeeping S myODE s r hr
  obtain ⟨A, hA, hAN, _⟩ := hrv.A_alloc
  obtain ⟨LU, hLU, hLN, _⟩ := hrv.LU_alloc
  refine ⟨r, hr, hrv, A, LU, hA, hLU, hrv.y_length, ?_, hAN, hLN, ?_⟩
  · rw [hyp, hN]; exact hv.y_length
  · rcases hpiv with h | ⟨h2, h⟩
    · rw [h, hN]
    · rw [h, hN]; exact hp h2

/-- In a session the dimension invariant holds as soon as a step has been taken since the
last reset. -/
theorem session_dimInv (S : BandedSystem) (myODE : LinearODE) (hA : myODE.KeepsShape)
    (s : BDFIntegrator) (hs : Session S myODE s) : s.stepCount ≠ 0 → DimInv s := by
  induction hs with
  | start s0 N upper lower y0 hy hC => exact fun h => absurd rfl h
  | set_y0 s y0 _ hy ih => exact fun h => absurd rfl h
  | set_t0 s t0 _ ih => exact fun h => absurd rfl h
  | set_dt s h _ ih => exact fun h => absurd rfl h
  | step s r hs hr ih =>
    intro _
    have hv := session_valid S myODE hA s hs
    obtain ⟨r', hr', _, hd⟩ := step_dimInv S myODE s hv (fun h2 => by
      obtain ⟨_, _, _, _, _, _, _, _, hp⟩ := ih (by omega)
      exact hp)
    rw [hr] at hr'
    cases hr'
    exact hd

theorem steps_session (S : BandedSystem) (myODE : LinearODE) (s : BDFIntegrator)
    (hs : Session S myODE s) (n : Nat) (r : BDFIntegrator × List Call)
    (hr : BDFIntegrator.steps S myODE n s = some r) :
    Session S myODE r.1 ∧ r.1.stepCount = s.stepCount + n := by
  induction n generalizing r with
  | zero =>
    have : (s, []) = r := by simpa [BDFIntegrator.steps] using hr
    rw [← this]
    exact ⟨hs, rfl⟩
  | succ k ih =>
    simp only [BDFIntegrator.steps] at hr
    obtain ⟨r1, h1, h2⟩ := Option.bind_eq_some.mp hr
    obtain ⟨r2, h3, h4⟩ := Option.map_eq_some'.mp h2
    obtain ⟨hs1, hc1⟩ := ih r1 h1
    rw [← h4]
    refine ⟨Session.step r1.1 r2 hs1 h3, ?_⟩
    show r2.1.stepCount = s.stepCount + (k + 1)
    rw [(step_bookkeeping S myODE r1.1 r2 h3).1, hc1]
    omega

/-- In a session any number of consecutive steps is defined. -/
theorem session_steps_defined (S : BandedSystem) (myODE : LinearODE) (hA : myODE.KeepsShape)
    (s : BDFIntegrator) (hs : Session S myODE s) (n : Nat) :
    ∃ r, BDFIntegrator.steps S myODE n s = some r := by
  induction n with
  | zero => exact ⟨(s, []), rfl⟩
  | succ k ih =>
    obtain ⟨r, hr⟩ := ih
    have hv := session_valid S myODE hA r.1 (steps_session S myODE s hs k r hr).1
    obtain ⟨r2, hr2, _⟩ := step_summary S myODE r.1 hv
    exact ⟨_, steps_succ S myODE k s r r2 hr hr2⟩

/-- C11. In every valid session (`set_size(N, ·, ·)`, `set_y0` with `N` components, a
collaborator that keeps the shape of `A` and returns `N` offsets), after any number
`n ≥ 1` of steps `len(y) = len(yprev) = N = size of A = size of LU = len(p)`; and every
operation of the session (`step`, `set_t0`, `set_dt`, `set_y0` with `N` components)
preserves this equality. -/
theorem dimension_invariant (S : BandedSystem) (myODE : LinearODE) (hA : myODE.KeepsShape)
    (s : BDFIntegrator) (hs : Session S myODE s) :
    (∀ n, 1 ≤ n → ∃ r, BDFIntegrator.steps S myODE n s = some r ∧ DimInv r.1 ∧
        r.1.N = s.N) ∧
    (DimInv s →
      (∃ r, s.step S myODE = some r ∧ DimInv r.1) ∧
      (∀ t0, DimInv (s.set_t0 t0)) ∧ (∀ h, DimInv (s.set_dt h)) ∧
      (∀ y0 : dvector, y0.length = s.N → DimInv (s.set_y0 y0))) := by
  constructor
  · intro n hn
    obtain ⟨r, hr⟩ := session_steps_defined S myODE hA s hs n
    obtain ⟨hrs, hc⟩ := steps_session S myODE s hs n r hr
    refine ⟨r, hr, session_dimInv S myODE hA r.1 hrs (by omega), ?_⟩
    clear hrs hc hn
    induction n generalizing r with
    | zero =>
      have : (s, []) = r := by simpa [BDFIntegrator.steps] using hr
      rw [← this]
    | succ k ih =>
      simp only [BDFIntegrator.steps] at hr
      obtain ⟨r1, h1, h2⟩ := Option.bind_eq_some.mp hr
      obtain ⟨r2, h3, h4⟩ := Option.map_eq_some'.mp h2
      rw [← h4]
      show r2.1.N = s.N
      rw [(step_bookkeeping S myODE r1.1 r2 h3).2.2.2.1]
      exact ih r1 h1
  · intro hd
    have hv := session_valid S myODE hA s hs
    obtain ⟨A, LU, h1, h2, h3, h4, h5, h6, h7⟩ := hd
    refine ⟨?_, fun _ => ⟨A, LU, h1, h2, h3, h4, h5, h6, h7⟩,
      fun _ => ⟨A, LU, h1, h2, h3, h4, h5, h6, h7⟩,
      fun y0 hy => ⟨A, LU, h1, h2, rfl, h4.trans hy.symm, h5.trans hy.symm,
        h6.trans hy.symm, h7.trans hy.symm⟩⟩
    obtain ⟨r, hr, _, hd'⟩ := step_dimInv S myODE s hv (fun _ => h7)
    exact ⟨r, hr, hd'⟩

theorem testODE_keepsShape : testODE.toLinearODE.KeepsShape :=
  fun _ => ⟨rfl, rfl, rfl⟩

theorem testStart_session (S : BandedSystem) :
    Session S testODE.toLinearODE (testStart 0 0 0 0) :=
  Session.set_dt _ _
    (Session.set_t0 _ _ (Session.start (BDFIntegrator.create 0 0 0 0) 5 1 1 testY0 rfl
      (fun _ => rfl)))

/-- C11, at the test fixture with the Cramer solver after three steps. -/
theorem dimension_invariant_witness :
    testODE.toLinearODE.KeepsShape ∧
      Session cramerSystem testODE.toLinearODE (testStart 0 0 0 0) ∧
      ∃ r, BDFIntegrator.steps cramerSystem testODE.toLinearODE 3 (testStart 0 0 0 0)
            = some r ∧ DimInv r.1 ∧ r.1.N = 5 :=
  ⟨testODE_keepsShape, testStart_session cramerSystem,
    (dimension_invariant cramerSystem testODE.toLinearODE testODE_keepsShape
      (testStart 0 0 0 0) (testStart_session cramerSystem)).1 3 (by decide)⟩

/-! ## C12 and C13 — `step` has no failure path -/

theorem stepOutcome_of_some (S : BandedSystem) (myODE : LinearODE) (s : BDFIntegrator)
    (r : BDFIntegrator × List Call) (h : s.step S myODE = some r) :
    s.stepOutcome S myODE = StepOutcome.returned r.1 := by
  unfold BDFIntegrator.stepOutcome
  rw [h]

theorem stepOutcome_of_none (S : BandedSystem) (myODE : LinearODE) (s : BDFIntegrator)
    (h : s.step S myODE = none) : s.stepOutcome S myODE = StepOutcome.undefined := by
  unfold BDFIntegrator.stepOutcome
  rw [h]

/-- No call of `step` raises an error of the taxonomy. -/
theorem stepOutcome_never_raised (S : BandedSystem) (myODE : LinearODE) (s : BDFIntegrator)
    (e : ErrorKind) (s' : BDFIntegrator) :
    s.stepOutcome S myODE ≠ StepOutcome.raised e s' := by
  unfold BDFIntegrator.stepOutcome
  cases s.step S myODE <;> simp

/-- A step on an integrator whose `A` or `LU` is `NULL` is undefined. -/
theorem step_null (S : BandedSystem) (myODE : LinearODE) (s : BDFIntegrator)
    (h : s.A = none ∨ s.LU = none) : s.step S myODE = none := by
  unfold BDFIntegrator.step
  rcases h with h | h
  · rw [h]
  · rw [h]
    cases s.A <;> rfl

theorem rhsLoop1_length (h : ℚ) (c : dvector) (n : Nat) (y r : dvector)
    (hr : rhsLoop1 h c n y = some r) : r.length = y.length := by
  induction n generalizing r with
  | zero =>
    have : y = r := by simpa [rhsLoop1, forLoop] using hr
    rw [this]
  | succ k ih =>
    unfold rhsLoop1 at hr
    simp only [forLoop] at hr
    obtain ⟨y1, h1, h2⟩ := Option.bind_eq_some.mp hr
    have e1 := ih y1 h1
    split at h2
    · cases h2
      simp [e1]
    · cases h2

/-- The loop `for (i < n) y[i] = …` runs outside a state with fewer than `n` components. -/
theorem rhsLoop1_none (h : ℚ) (c : dvector) (n : Nat) (y : dvector) (hlt : y.length < n) :
    rhsLoop1 h c n y = none := by
  induction n with
  | zero => omega
  | succ k ih =>
    unfold rhsLoop1
    simp only [forLoop]
    rcases hk : forLoop (fun i (y : dvector) =>
        if i < y.length ∧ i < c.length then
          some (y.set i (-(y.getD i 0) / h - c.getD i 0))
        else none) k y with _ | y1
    · rfl
    · have hlen := rhsLoop1_length h c k y y1 hk
      simp only [Option.some_bind]
      rw [if_neg]
      intro hc
      have := hc.1
      omega

/-- C13, refuted as stated: `step` on a freshly constructed integrator (`A` and `LU` are
`NULL`) raises no `NotInitialized`; it dereferences the null pointers and its behaviour is
undefined. -/
theorem fresh_step_undefined :
    (BDFIntegrator.create 0 0 0 0).A = none ∧ (BDFIntegrator.create 0 0 0 0).LU = none ∧
      (BDFIntegrator.create 0 0 0 0).stepOutcome cramerSystem singularODE
        = StepOutcome.undefined ∧
      (BDFIntegrator.create 0 0 0 0).stepOutcome cramerSystem singularODE
        ≠ StepOutcome.raised ErrorKind.NotInitialized (BDFIntegrator.create 0 0 0 0) :=
  ⟨rfl, rfl, stepOutcome_of_none _ _ _ (step_null _ _ _ (Or.inl rfl)),
    stepOutcome_never_raised _ _ _ _ _⟩

/-- C13, amended. `step` checks nothing and never raises an error.  On an integrator whose
`A` or `LU` is still `NULL` (freshly constructed, or after `set_y0` alone) it dereferences
the null pointer, and after `set_size(N, ·, ·)` alone with `N > 0` it indexes the empty
state: in each case its behaviour is undefined. -/
theorem unconfigured_step_undefined (S : BandedSystem) (myODE : LinearODE) :
    (∀ s : BDFIntegrator, s.A = none ∨ s.LU = none →
      s.step S myODE = none ∧ s.stepOutcome S myODE = StepOutcome.undefined) ∧
    (∀ (h0 : ℚ) (N0 upper0 lower0 : Nat),
      (BDFIntegrator.create h0 N0 upper0 lower0).step S myODE = none) ∧
    (∀ (h0 : ℚ) (N0 upper0 lower0 : Nat) (y0 : dvector),
      ((BDFIntegrator.create h0 N0 upper0 lower0).set_y0 y0).step S myODE = none) ∧
    (∀ (h0 : ℚ) (N0 upper0 lower0 N upper lower : Nat), 0 < N →
      ((BDFIntegrator.create h0 N0 upper0 lower0).set_size N upper lower).step S myODE
        = none) ∧
    (∀ (s : BDFIntegrator) (e : ErrorKind) (s' : BDFIntegrator),
      s.stepOutcome S myODE ≠ StepOutcome.raised e s') := by
  refine ⟨fun s h => ⟨step_null S myODE s h, stepOutcome_of_none _ _ _ (step_null S myODE s h)⟩,
    fun _ _ _ _ => step_null _ _ _ (Or.inl rfl),
    fun _ _ _ _ _ => step_null _ _ _ (Or.inl rfl), ?_,
    fun s e s' => stepOutcome_never_raised S myODE s e s'⟩
  intro h0 N0 upper0 lower0 N upper lower hN
  have hA : ((BDFIntegrator.create h0 N0 upper0 lower0).set_size N upper lower).A
      = some (sdBandMatrix.alloc N upper lower) := rfl
  have hLU : ((BDFIntegrator.create h0 N0 upper0 lower0).set_size N upper lower).LU
      = some (sdBandMatrix.alloc N upper lower) := rfl
  have hc : ((BDFIntegrator.create h0 N0 upper0 lower0).set_size N upper lower).stepCount
      = 0 := rfl
  have hy : ((BDFIntegrator.create h0 N0 upper0 lower0).set_size N upper lower).y = [] := rfl
  have hNN : ((BDFIntegrator.create h0 N0 upper0 lower0).set_size N upper lower).N = N := rfl
  unfold BDFIntegrator.step
  rw [hA, hLU]
  simp only [hc, if_true, hy, hNN]
  rw [rhsLoop1_none _ _ N [] hN]
  cases diagLoop _ N _ <;> rfl

/-- C13 amended, at a freshly constructed integrator. -/
theorem unconfigured_step_undefined_witness :
    ((BDFIntegrator.create 0 0 0 0).A = none ∨ (BDFIntegrator.create 0 0 0 0).LU = none) ∧
      (BDFIntegrator.create 0 0 0 0).step cramerSystem singularODE = none ∧
      (0 < 3 ∧ ((BDFIntegrator.create 0 0 0 0).set_size 3 1 1).step cramerSystem singularODE
        = none) :=
  ⟨Or.inl rfl,
    ((unconfigured_step_undefined cramerSystem singularODE).1 _ (Or.inl rfl)).1,
    by decide, (unconfigured_step_undefined cramerSystem singularODE).2.2.2.1 0 0 0 0 3 1 1
      (by decide)⟩

theorem singularStart_valid : singularStart.Valid singularODE :=
  valid_set_dt _ _
    (valid_set_t0 _ _
      (valid_set_size_set_y0 singularODE _ 1 0 0 [1] rfl
        (fun _ => ⟨rfl, rfl, rfl⟩) (fun _ => rfl)) 0) (1 / 2)

/-- What a step in a valid session leaves behind, for any band solver and without any
assumption on the matrix: the state is the output of `BandGBTRS`. -/
theorem step_solver_output (S : BandedSystem) (myODE : LinearODE) (s : BDFIntegrator)
    (hv : s.Valid myODE) :
    ∃ r LU' rhs, s.step S myODE = some r ∧ r.1.LU = some LU' ∧
      r.1.y = S.BandGBTRS LU' r.1.p rhs ∧ Call.BandGBTRS rhs ∈ r.2 := by
  obtain ⟨A, hA, _⟩ := hv.A_alloc
  obtain ⟨LU, hLU, _⟩ := hv.LU_alloc
  by_cases h0 : s.stepCount = 0
  · obtain ⟨M, rhs, hstep, _⟩ := step_init_spec S myODE s hv h0 A hA
    exact ⟨_, (S.BandGBTRF M).1, rhs, hstep, rfl, rfl, by simp⟩
  · obtain ⟨rhs, _, _, hone, hmore⟩ := step_bdf2_spec S myODE s hv h0 A LU hA hLU
    by_cases h1 : s.stepCount = 1
    · obtain ⟨M, _, _, _, _, hstep⟩ := hone h1
      exact ⟨_, (S.BandGBTRF M).1, rhs, hstep, rfl, rfl, by simp⟩
    · exact ⟨_, LU, rhs, hmore h1, rfl, rfl, by simp⟩

/-- C12, refuted as stated: the first step of `singularStart` has the singular matrix
`A − (1/h)·I = (0)` and a linear system without any solution, so factorization and solve
cannot succeed; yet for every band solver `step` returns normally, with `t` advanced from
`0` to `1/2`, the step counter at `1`, `yprev` overwritten and `y` replaced by whatever
`BandGBTRS` wrote. -/
theorem singular_step_mutates :
    (shifted singularStart.N (singularODE.get_A (sdBandMatrix.alloc 1 0 0))
        (1 / singularStart.h)).det = 0 ∧
      (∀ z : Fin 1 → ℚ,
        (shifted 1 (singularODE.get_A (sdBandMatrix.alloc 1 0 0)) (1 / (1 / 2))).mulVec z
          ≠ fun i => -(dvector.toVec 1 [1] i) / (1 / 2) - dvector.toVec 1 [0] i) ∧
      singularStart.t = 0 ∧ singularStart.stepCount = 0 ∧
      ∀ S : BandedSystem, ∃ r LU' rhs,
        singularStart.stepOutcome S singularODE = StepOutcome.returned r ∧
          r.t = 1 / 2 ∧ r.stepCount = 1 ∧ r.yprev = [1] ∧ r.LU = some LU' ∧
          r.y = S.BandGBTRS LU' r.p rhs ∧ r ≠ singularStart := by
  refine ⟨by decide!, ?_, rfl, rfl, ?_⟩
  · intro z hz
    have h0 := congrFun hz 0
    have hM : shifted 1 (singularODE.get_A (sdBandMatrix.alloc 1 0 0)) (1 / (1 / 2)) = 0 := by
      decide!
    rw [hM, Matrix.zero_mulVec] at h0
    have : (0 : ℚ) = -(dvector.toVec 1 [1] 0) / (1 / 2) - dvector.toVec 1 [0] 0 := h0
    revert this
    decide!
  · intro S
    obtain ⟨r, LU', rhs, hstep, hLU, hy, _⟩ :=
      step_solver_output S singularODE singularStart singularStart_valid
    obtain ⟨hc, ht, _, _, _, _, hyp⟩ := step_bookkeeping S singularODE singularStart r hstep
    refine ⟨r.1, LU', rhs, stepOutcome_of_some _ _ _ r hstep, ?_, hc, hyp, hLU, hy, ?_⟩
    · rw [ht]
      decide!
    · intro heq
      rw [heq] at hc
      exact absurd hc (by decide)

/-- C12, amended. `step` has no failure path: it discards the status of the factorization
and reports nothing.  In every valid session, for every band solver and whether or not
the matrix is singular, it returns normally with a modified state: `yprev` is the old `y`,
`y` is whatever `BandGBTRS` wrote, the step counter has grown by `1` and `t` by `h`. -/
theorem step_has_no_failure_path (S : BandedSystem) (myODE : LinearODE) (s : BDFIntegrator)
    (hv : s.Valid myODE) :
    ∃ r LU' rhs, s.step S myODE = some r ∧
      s.stepOutcome S myODE = StepOutcome.returned r.1 ∧
      r.1.stepCount = s.stepCount + 1 ∧ r.1.t = s.t + s.h ∧ r.1.yprev = s.y ∧
      r.1.LU = some LU' ∧ r.1.y = S.BandGBTRS LU' r.1.p rhs ∧ Call.BandGBTRS rhs ∈ r.2 ∧
      r.1 ≠ s ∧
      ∀ (e : ErrorKind) (s' : BDFIntegrator), s.stepOutcome S myODE ≠ StepOutcome.raised e s' := by
  obtain ⟨r, LU', rhs, hstep, hLU, hy, hmem⟩ := step_solver_output S myODE s hv
  obtain ⟨hc, ht, _, _, _, _, hyp⟩ := step_bookkeeping S myODE s r hstep
  refine ⟨r, LU', rhs, hstep, stepOutcome_of_some _ _ _ r hstep, hc, ht, hyp, hLU, hy, hmem,
    ?_, fun e s' => stepOutcome_never_raised S myODE s e s'⟩
  intro heq
  rw [heq] at hc
  omega

/-- C12 amended, at the singular first step of `singularStart` with the Cramer solver. -/
theorem step_has_no_failure_path_witness :
    singularStart.Valid singularODE ∧
      ∃ r, singularStart.step cramerSystem singularODE = some r ∧
        r.1.stepCount = singularStart.stepCount + 1 ∧ r.1 ≠ singularStart :=
  ⟨singularStart_valid,
    by
      obtain ⟨r, _, _, h1, _, h2, _, _, _, _, _, h3, _⟩ :=
        step_has_no_failure_path cramerSystem singularODE singularStart singularStart_valid
      exact ⟨r, h1, h2, h3⟩⟩

/-! ## C14 — the setters store what they are given -/

/-- C14, refuted as stated: `set_h(-1)`, `set_dt(0)` and `set_y0` with the empty vector
return normally and the integrator holds the value afterwards (`h = -1`, `h = 0`,
`N = 0`). -/
theorem setters_store_bad_values :
    ((Integrator.create 1 3).set_h (-1)).get_h = -1 ∧
      ((BDFIntegrator.create 1 3 1 1).set_dt 0).get_h = 0 ∧
      ((BDFIntegrator.create 1 3 1 1).set_dt (-1)).get_h = -1 ∧
      ((Integrator.create 1 3).set_y0 []).N = 0 ∧
      ((Integrator.create 1 3).set_y0 []).get_y = [] ∧
      ((BDFIntegrator.create 1 3 1 1).set_y0 []).N = 0 :=
  ⟨rfl, rfl, rfl, rfl, rfl, rfl⟩

/-- C14, amended. The setters check nothing: `set_h` and `set_dt` store every `h`
(`set_dt` also resets the step counter), `set_y0` stores every vector, the empty one
included, with `N` its length; the other members are untouched.  A step size `h ≤ 0` shows
later: `step_to_time` towards a later time never terminates. -/
theorem setters_store_unchecked :
    (∀ (s : Integrator) (h : ℚ),
      (s.set_h h).h = h ∧ (s.set_h h).t = s.t ∧ (s.set_h h).y = s.y ∧ (s.set_h h).N = s.N) ∧
    (∀ (s : BDFIntegrator) (h : ℚ),
      (s.set_dt h).h = h ∧ (s.set_dt h).stepCount = 0 ∧ (s.set_dt h).t = s.t ∧
        (s.set_dt h).y = s.y ∧ (s.set_dt h).N = s.N) ∧
    (∀ (s : Integrator) (y0 : dvector),
      (s.set_y0 y0).y = y0 ∧ (s.set_y0 y0).N = y0.length ∧ (s.set_y0 y0).h = s.h ∧
        (s.set_y0 y0).t = s.t) ∧
    (∀ (s : BDFIntegrator) (y0 : dvector),
      (s.set_y0 y0).y = y0 ∧ (s.set_y0 y0).N = y0.length ∧ (s.set_y0 y0).stepCount = 0 ∧
        (s.set_y0 y0).A = s.A ∧ (s.set_y0 y0).LU = s.LU ∧ (s.set_y0 y0).p = s.p) ∧
    (∀ (myODE : ODE) (s : ExplicitIntegrator) (h tEnd : ℚ) (fuel : Nat),
      h ≤ 0 → s.t < tEnd →
        ExplicitIntegrator.step_to_time myODE tEnd fuel
          { s with toIntegrator := s.toIntegrator.set_h h } = none) := by
  refine ⟨fun _ _ => ⟨rfl, rfl, rfl, rfl⟩, fun _ _ => ⟨rfl, rfl, rfl, rfl, rfl⟩,
    fun _ _ => ⟨rfl, rfl, rfl, rfl⟩, fun _ _ => ⟨rfl, rfl, rfl, rfl, rfl, rfl⟩, ?_⟩
  intro myODE s h tEnd fuel hh ht
  exact step_to_time_diverges myODE tEnd fuel _ hh ht

/-! ## C15 — sizes are not compared -/

theorem diagLoop_length (x : ℚ) (n : Nat) (M M' : sdBandMatrix)
    (h : diagLoop x n M = some M') : M'.elem.length = M.elem.length := by
  induction n generalizing M' with
  | zero =>
    have : M = M' := by simpa [diagLoop, forLoop] using h
    rw [this]
  | succ k ih =>
    unfold diagLoop at h
    simp only [forLoop] at h
    obtain ⟨M1, h1, h2⟩ := Option.bind_eq_some.mp h
    have e1 := ih M1 h1
    unfold sdBandMatrix.subAt at h2
    split at h2
    · cases h2
      simp [e1]
    · cases h2

/-- The loop `for (i < n) M(i,i) -= x` runs outside the storage of a matrix with fewer
than `n` rows. -/
theorem diagLoop_none (x : ℚ) (n : Nat) (M : sdBandMatrix) (h : M.elem.length < n) :
    diagLoop x n M = none := by
  induction n with
  | zero => omega
  | succ k ih =>
    unfold diagLoop
    simp only [forLoop]
    rcases hk : forLoop (fun i M => M.subAt i i x) k M with _ | M1
    · rw [hk]; rfl
    · have hlen := diagLoop_length x k M M1 hk
      rw [hk]
      show M1.subAt k k x = none
      unfold sdBandMatrix.subAt
      rw [if_neg]
      intro hc
      have := hc.2.2.1
      omega

/-- C15, refuted as stated: `set_y0` with two components after `set_size(3, 1, 1)`, and
`set_size(3, 1, 1)` after `set_y0` with two components, both return normally; afterwards
`N` and the buffers disagree (`N = 2` with matrices of size `3`, resp. `N = 3` with a state
of length `2`). -/
theorem mismatched_sizes_accepted :
    (((BDFIntegrator.create 0 0 0 0).set_size 3 1 1).set_y0 [1, 2]).N = 2 ∧
      (((BDFIntegrator.create 0 0 0 0).set_size 3 1 1).set_y0 [1, 2]).A
        = some (sdBandMatrix.alloc 3 1 1) ∧
      (((BDFIntegrator.create 0 0 0 0).set_size 3 1 1).set_y0 [1, 2]).p.length = 3 ∧
      (((BDFIntegrator.create 0 0 0 0).set_y0 [1, 2]).set_size 3 1 1).N = 3 ∧
      (((BDFIntegrator.create 0 0 0 0).set_y0 [1, 2]).set_size 3 1 1).y.length = 2 :=
  ⟨rfl, rfl, rfl, rfl, rfl⟩

/-- C15, amended. Neither setter compares sizes.  `set_y0` after `set_size(N, ·, ·)` stores
the vector and sets `N` to its length while `A`, `LU` and the pivots keep the size of
`set_size`; `set_size(N', ·, ·)` after `set_y0` sets `N = N'` and reallocates while `y`
keeps its length.  So `N` and the buffers agree afterwards exactly when the lengths were
equal; and a state longer than the matrices makes the next `step` index outside them. -/
theorem sizes_not_compared (s : BDFIntegrator) (N upper lower : Nat) (y0 : dvector) :
    (((s.set_size N upper lower).set_y0 y0).N = y0.length ∧
      ((s.set_size N upper lower).set_y0 y0).y = y0 ∧
      ((s.set_size N upper lower).set_y0 y0).A = some (sdBandMatrix.alloc N upper lower) ∧
      ((s.set_size N upper lower).set_y0 y0).LU = some (sdBandMatrix.alloc N upper lower) ∧
      ((s.set_size N upper lower).set_y0 y0).p.length = N) ∧
    (((s.set_y0 y0).set_size N upper lower).N = N ∧
      ((s.set_y0 y0).set_size N upper lower).y = y0 ∧
      ((s.set_y0 y0).set_size N upper lower).A = some (sdBandMatrix.alloc N upper lower) ∧
      ((s.set_y0 y0).set_size N upper lower).p.length = N) ∧
    (((s.set_size N upper lower).set_y0 y0).N = (sdBandMatrix.alloc N upper lower).N
      ↔ y0.length = N) ∧
    (((s.set_y0 y0).set_size N upper lower).N = ((s.set_y0 y0).set_size N upper lower).y.length
      ↔ y0.length = N) ∧
    (N < y0.length → ∀ (S : BandedSystem) (myODE : LinearODE),
      ((s.set_size N upper lower).set_y0 y0).step S myODE = none) := by
  have hp : (s.p.take N ++ List.replicate (N - s.p.length) 0).length = N := by
    rw [List.length_append, List.length_take, List.length_replicate]
    omega
  refine ⟨⟨rfl, rfl, rfl, rfl, hp⟩, ⟨rfl, rfl, rfl, hp⟩, Iff.rfl, ⟨Eq.symm, Eq.symm⟩, ?_⟩
  intro hlt S myODE
  have hA : ((s.set_size N upper lower).set_y0 y0).A
      = some (sdBandMatrix.alloc N upper lower) := rfl
  have hLU : ((s.set_size N upper lower).set_y0 y0).LU
      = some (sdBandMatrix.alloc N upper lower) := rfl
  have h0 : ((s.set_size N upper lower).set_y0 y0).stepCount = 0 := rfl
  have hN : ((s.set_size N upper lower).set_y0 y0).N = y0.length := rfl
  unfold BDFIntegrator.step
  rw [hA, hLU]
  simp only [h0, if_true, hN]
  rw [diagLoop_none]
  · rfl
  · rw [(BandCopy_shape _ _ _ _).2.2.2.1]
    exact hlt

/-- C15 amended, at `set_size(1, 0, 0)` followed by `set_y0` with two components: the next
`step` is undefined. -/
theorem sizes_not_compared_witness :
    1 < ([1, 2] : dvector).length ∧
      (((BDFIntegrator.create 0 0 0 0).set_size 1 0 0).set_y0 [1, 2]).step cramerSystem
        singularODE = none :=
  ⟨by decide,
    (sizes_not_compared (BDFIntegrator.create 0 0 0 0) 1 0 0 [1, 2]).2.2.2.2 (by decide)
      cramerSystem singularODE⟩

/-! ## C16 — setters and getters of the base class -/

/-- C16. Round trip of the setters and getters: `get_y` after `set_y0(y0)` is `y0`,
element for element, with `N = len(y0)`; `get_t` after `set_t0(t0)` is `t0`; `get_h` after
`set_h(h)` is `h`; a freshly constructed integrator has `t = 0`.  The same holds through
the setters of `BDFIntegrator` and `ExplicitIntegrator`. -/
theorem setter_getter_round_trip :
    (∀ (s : Integrator) (y0 : dvector),
      (s.set_y0 y0).get_y = y0 ∧ (s.set_y0 y0).N = y0.length ∧
        (s.set_y0 y0).get_y.length = y0.length ∧
        ∀ i, (s.set_y0 y0).get_y.getD i 0 = y0.getD i 0) ∧
    (∀ (s : Integrator) (t0 : ℚ), (s.set_t0 t0).get_t = t0) ∧
    (∀ (s : Integrator) (h : ℚ), (s.set_h h).get_h = h) ∧
    (∀ (h0 : ℚ) (N0 : Nat), (Integrator.create h0 N0).get_t = 0) ∧
    (∀ (s : BDFIntegrator) (y0 : dvector) (t0 h : ℚ),
      (s.set_y0 y0).get_y = y0 ∧ (s.set_t0 t0).get_t = t0 ∧ (s.set_dt h).get_h = h) ∧
    (∀ (h0 : ℚ) (N0 upper0 lower0 : Nat), (BDFIntegrator.create h0 N0 upper0 lower0).get_t = 0) ∧
    (∀ (s : ExplicitIntegrator) (y0 : dvector),
      (s.set_y0 y0).get_y = y0 ∧ (s.set_y0 y0).get_ydot.length = y0.length) := by
  refine ⟨fun s y0 => ⟨rfl, rfl, rfl, fun _ => rfl⟩, fun _ _ => rfl, fun _ _ => rfl,
    fun _ _ => rfl, fun _ _ _ _ => ⟨rfl, rfl, rfl⟩, fun _ _ _ _ => rfl, fun s y0 => ⟨rfl, ?_⟩⟩
  show (dvector.resize s.ydot y0.length 0).length = y0.length
  unfold dvector.resize
  rw [List.length_append, List.length_take, List.length_replicate]
  omega

/-! ## C17 — the cached factorization is valid -/

/-- The band copy made by `step` does not depend on the content of `LU`. -/
theorem BandCopy_alloc (s : BDFIntegrator) (A LU : sdBandMatrix) (hAN : A.N = s.N)
    (hN : LU.N = s.N) (hu : LU.upper_bw = s.upper_bw) (hl : LU.lower_bw = s.lower_bw) :
    BandCopy A LU s.upper_bw s.lower_bw
      = BandCopy A (sdBandMatrix.alloc s.N s.upper_bw s.lower_bw) s.upper_bw s.lower_bw := by
  have := BandCopy_target A LU (sdBandMatrix.alloc s.N s.upper_bw s.lower_bw)
    (hAN.trans hN.symm) hN hu hl
  rw [hu, hl] at this
  exact this

/-- The step with `stepCount = 0` of a valid session, with the matrix it builds. -/
theorem step_init_factor (S : BandedSystem) (myODE : LinearODE) (s : BDFIntegrator)
    (hv : s.Valid myODE) (h0 : s.stepCount = 0) (A : sdBandMatrix) (hA : s.A = some A) :
    ∃ r, s.step S myODE = some r ∧ r.1.A = some (myODE.get_A A) ∧ r.1.stepCount = 1 ∧
      HoldsFactor S r.1 (myODE.get_A A) (1 / r.1.h) := by
  obtain ⟨A', hA', hAN, hAu, hAl⟩ := hv.A_alloc
  obtain ⟨LU, hLU, hLN, hLu, hLl⟩ := hv.LU_alloc
  rw [hA] at hA'
  cases hA'
  obtain ⟨gN, gu, gl⟩ := hv.get_A_shape A
  obtain ⟨M, hM, hMN, _, _, hMat⟩ :=
    build_matrix_spec s (myODE.get_A A) LU (1 / s.h) (gN.trans hAN) (gu.trans hAu)
      (gl.trans hAl) hLN hLu hLl
  obtain ⟨rhs, hrhs, _⟩ :=
    rhsLoop1_spec s.h (myODE.get_C s.c) s.y s.N (by rw [hv.y_length])
      (by rw [hv.get_C_length])
  have hstep : s.step S myODE = some
      ({ s with
          yprev := s.y, A := some (myODE.get_A A), c := myODE.get_C s.c
          LU := some (S.BandGBTRF M).1, p := (S.BandGBTRF M).2
          y := S.BandGBTRS (S.BandGBTRF M).1 (S.BandGBTRF M).2 rhs
          stepCount := s.stepCount + 1, t := s.t + s.h },
        [Call.get_A, Call.get_C, Call.BandGBTRF M, Call.BandGBTRS rhs]) := by
    unfold BDFIntegrator.step
    rw [hA, hLU]
    simp only [h0, if_true, hM, hrhs, Option.some_bind]
  rw [BandCopy_alloc s (myODE.get_A A) LU (gN.trans hAN) hLN hLu hLl] at hM
  exact ⟨_, hstep, rfl, by simp [h0], M, hM, hMN, hMat, rfl, rfl⟩

/-- The step with `stepCount = 1` of a valid session, with the matrix it builds. -/
theorem step_transition_factor (S : BandedSystem) (myODE : LinearODE) (s : BDFIntegrator)
    (hv : s.Valid myODE) (h1 : s.stepCount = 1) (A : sdBandMatrix) (hA : s.A = some A) :
    ∃ r M rhs, s.step S myODE = some r ∧ r.1.A = some A ∧ r.1.stepCount = 2 ∧
      HoldsFactor S r.1 A (3 / (2 * r.1.h)) ∧
      rhsLoop2 s.h s.yprev s.c s.N s.y = some rhs ∧
      diagLoop (3 / (2 * s.h)) s.N
        (BandCopy A (sdBandMatrix.alloc s.N s.upper_bw s.lower_bw) s.upper_bw s.lower_bw)
        = some M ∧
      r.1.LU = some (S.BandGBTRF M).1 ∧ r.1.p = (S.BandGBTRF M).2 ∧
      r.1.y = S.BandGBTRS (S.BandGBTRF M).1 (S.BandGBTRF M).2 rhs ∧ r.1.yprev = s.y := by
  obtain ⟨A', hA', hAN, hAu, hAl⟩ := hv.A_alloc
  obtain ⟨LU, hLU, hLN, hLu, hLl⟩ := hv.LU_alloc
  rw [hA] at hA'
  cases hA'
  have hne : s.stepCount ≠ 0 := by omega
  obtain ⟨hyp, hc⟩ := hv.history hne
  obtain ⟨M, hM, hMN, _, _, hMat⟩ :=
    build_matrix_spec s A LU (3 / (2 * s.h)) hAN hAu hAl hLN hLu hLl
  obtain ⟨rhs, hrhs, _⟩ :=
    rhsLoop2_spec s.h s.yprev s.c s.y s.N (by rw [hv.y_length]) (by rw [hyp]) (by rw [hc])
  have hstep : s.step S myODE = some
      ({ s with
          LU := some (S.BandGBTRF M).1, p := (S.BandGBTRF M).2, yprev := s.y
          y := S.BandGBTRS (S.BandGBTRF M).1 (S.BandGBTRF M).2 rhs
          stepCount := s.stepCount + 1, t := s.t + s.h },
        [Call.BandGBTRF M, Call.BandGBTRS rhs]) := by
    unfold BDFIntegrator.step
    rw [hA, hLU]
    simp only [hne, h1, if_true, if_false, hM, hrhs, Option.some_bind, Option.map_some',
      List.singleton_append, one_ne_zero]
  rw [BandCopy_alloc s A LU hAN hLN hLu hLl] at hM
  exact ⟨_, M, rhs, hstep, hA, by simp [h1], ⟨M, hM, hMN, hMat, rfl, rfl⟩, hrhs, hM,
    rfl, rfl, rfl, rfl⟩

/-- The step with `stepCount ≥ 2` of a valid session keeps `A`, `LU`, `p`, `h` and the
sizes. -/
theorem step_steady_keeps (S : BandedSystem) (myODE : LinearODE) (s : BDFIntegrator)
    (hv : s.Valid myODE) (h2 : 2 ≤ s.stepCount) :
    ∃ r rhs LU, s.step S myODE = some r ∧ s.LU = some LU ∧
      rhsLoop2 s.h s.yprev s.c s.N s.y = some rhs ∧
      r.1.A = s.A ∧ r.1.LU = s.LU ∧ r.1.p = s.p ∧ r.1.h = s.h ∧ r.1.N = s.N ∧
      r.1.upper_bw = s.upper_bw ∧ r.1.lower_bw = s.lower_bw ∧
      r.1.y = S.BandGBTRS LU s.p rhs ∧ r.1.yprev = s.y := by
  obtain ⟨A, hA, _⟩ := hv.A_alloc
  obtain ⟨LU, hLU, _⟩ := hv.LU_alloc
  have hne : s.stepCount ≠ 0 := by omega
  have hne1 : s.stepCount ≠ 1 := by omega
  obtain ⟨hyp, hc⟩ := hv.history hne
  obtain ⟨rhs, hrhs, _⟩ :=
    rhsLoop2_spec s.h s.yprev s.c s.y s.N (by rw [hv.y_length]) (by rw [hyp]) (by rw [hc])
  have hstep : s.step S myODE = some
      ({ s with
          LU := some LU, p := s.p, yprev := s.y
          y := S.BandGBTRS LU s.p rhs
          stepCount := s.stepCount + 1, t := s.t + s.h },
        [Call.BandGBTRS rhs]) := by
    unfold BDFIntegrator.step
    rw [hA, hLU]
    simp only [hne, hne1, if_false, hrhs, Option.some_bind, List.nil_append]
  exact ⟨_, rhs, LU, hstep, hLU, hrhs, rfl, hLU.symm ▸ rfl, rfl, rfl, rfl, rfl, rfl, rfl, rfl⟩

theorem counter_zero_vacuous (s : BDFIntegrator) (h : s.stepCount = 0) (P Q : Prop) :
    (s.stepCount = 1 → P) ∧ (2 ≤ s.stepCount → Q) :=
  ⟨fun h1 => by omega, fun h2 => by omega⟩

/-- The cache invariant of a session: with step counter `1` the buffers hold the
factorization of `A − (1/h)·I`, with step counter `≥ 2` that of `A − (3/(2h))·I`. -/
theorem session_cache (S : BandedSystem) (myODE : LinearODE) (hK : myODE.KeepsShape)
    (s : BDFIntegrator) (hs : Session S myODE s) :
    ∀ A, s.A = some A →
      (s.stepCount = 1 → HoldsFactor S s A (1 / s.h)) ∧
      (2 ≤ s.stepCount → HoldsFactor S s A (3 / (2 * s.h))) := by
  induction hs with
  | start s0 N upper lower y0 hy hC => exact fun A _ => counter_zero_vacuous _ rfl _ _
  | set_y0 s y0 _ hy ih => exact fun A _ => counter_zero_vacuous _ rfl _ _
  | set_t0 s t0 _ ih => exact fun A _ => counter_zero_vacuous _ rfl _ _
  | set_dt s h _ ih => exact fun A _ => counter_zero_vacuous _ rfl _ _
  | step s r hs hr ih =>
    intro A hrA
    have hv := session_valid S myODE hK s hs
    obtain ⟨A0, hA0, _⟩ := hv.A_alloc
    have hcnt := (step_bookkeeping S myODE s r hr).1
    by_cases h0 : s.stepCount = 0
    · obtain ⟨r', hr', hrA', _, hF⟩ := step_init_factor S myODE s hv h0 A0 hA0
      rw [hr] at hr'
      cases hr'
      rw [hrA] at hrA'
      cases hrA'
      exact ⟨fun _ => hF, fun h => by omega⟩
    · by_cases h1 : s.stepCount = 1
      · obtain ⟨r', _, _, hr', hrA', _, hF, _⟩ :=
          step_transition_factor S myODE s hv h1 A0 hA0
        rw [hr] at hr'
        cases hr'
        rw [hrA] at hrA'
        cases hrA'
        exact ⟨fun h => by omega, fun _ => hF⟩
      · obtain ⟨r', _, _, hr', _, _, eA, eLU, ep, eh, eN, eu, el, _⟩ :=
          step_steady_keeps S myODE s hv (by omega)
        rw [hr] at hr'
        cases hr'
        refine ⟨fun h => by omega, fun _ => ?_⟩
        obtain ⟨M, hM, hMN, hMat, hLU, hp⟩ := (ih A (eA ▸ hrA)).2 (by omega)
        refine ⟨M, ?_, ?_, ?_, ?_, ?_⟩
        · rw [eN, eu, el, eh]; exact hM
        · rw [eN]; exact hMN
        · rw [eN, eh]; exact hMat
        · rw [eLU]; exact hLU
        · rw [ep]; exact hp

/-- C17. In every state of a valid session with a collaborator that keeps the shape of
`A`: with step counter `1` the stored `LU` and `p` are what the solver made of
`A − (1/h)·I`, with step counter `≥ 2` what it made of `A − (3/(2h))·I`, for the current
`h` and the stored `A`; and a step that reuses them ends in the same `y`, `yprev`, `LU`
and `p` as the step that rebuilds the matrix from `A` and `h` and factorizes it again. -/
theorem cached_factorization_valid (S : BandedSystem) (myODE : LinearODE)
    (hK : myODE.KeepsShape) (s : BDFIntegrator) (hs : Session S myODE s) (A : sdBandMatrix)
    (hA : s.A = some A) :
    (s.stepCount = 1 → HoldsFactor S s A (1 / s.h)) ∧
    (2 ≤ s.stepCount → HoldsFactor S s A (3 / (2 * s.h))) ∧
    (2 ≤ s.stepCount → ∃ r r1, s.step S myODE = some r ∧
      s.refactorizing.step S myODE = some r1 ∧
      r.2.countP Call.isFactor = 0 ∧ r1.2.countP Call.isFactor = 1 ∧
      r.1.y = r1.1.y ∧ r.1.yprev = r1.1.yprev ∧ r.1.LU = r1.1.LU ∧ r.1.p = r1.1.p) := by
  obtain ⟨c1, c2⟩ := session_cache S myODE hK s hs A hA
  refine ⟨c1, c2, ?_⟩
  intro h2
  have hv := session_valid S myODE hK s hs
  obtain ⟨M, hM, _, _, hLU, hp⟩ := c2 h2
  obtain ⟨r, rhs, LU, hr, hLU', hrhs, _, eLU, ep, _, _, _, _, ey, eyp⟩ :=
    step_steady_keeps S myODE s hv h2
  have hv1 : s.refactorizing.Valid myODE :=
    { A_alloc := hv.A_alloc
      LU_alloc := hv.LU_alloc
      y_length := hv.y_length
      get_A_shape := hv.get_A_shape
      get_C_length := hv.get_C_length
      history := fun _ => hv.history (by omega) }
  obtain ⟨r1, M1, rhs1, hr1, _, _, _, hrhs1, hM1, eLU1, ep1, ey1, eyp1⟩ :=
    step_transition_factor S myODE s.refactorizing hv1 rfl A hA
  have eM : M1 = M := by
    have : some M1 = some M := hM1.symm.trans hM
    exact Option.some.inj this
  have erhs : rhs1 = rhs := by
    have : some rhs1 = some rhs := hrhs1.symm.trans hrhs
    exact Option.some.inj this
  subst eM erhs
  rw [hLU] at hLU'
  cases hLU'
  refine ⟨r, r1, hr, hr1, ?_, ?_, ?_, ?_, ?_, ?_⟩
  · obtain ⟨r', hr', _, _, _, _, _, _, _, _, _, _, hF, _⟩ := step_summary S myODE s hv
    rw [hr] at hr'
    cases hr'
    rw [hF, if_neg (by omega)]
  · obtain ⟨r', hr', _, _, _, _, _, _, _, _, _, _, hF, _⟩ :=
      step_summary S myODE s.refactorizing hv1
    rw [hr1] at hr'
    cases hr'
    rw [hF]
    rfl
  · rw [ey, ey1, hp]
  · rw [eyp, eyp1]; rfl
  · rw [eLU, eLU1, hLU]
  · rw [ep, ep1, hp]

/-- C17, at the test fixture with the Cramer solver after three steps. -/
theorem cached_factorization_valid_witness :
    testODE.toLinearODE.KeepsShape ∧
      ∃ r A, BDFIntegrator.steps cramerSystem testODE.toLinearODE 3 (testStart 0 0 0 0)
            = some r ∧ Session cramerSystem testODE.toLinearODE r.1 ∧ r.1.A = some A ∧
        2 ≤ r.1.stepCount ∧ HoldsFactor cramerSystem r.1 A (3 / (2 * r.1.h)) := by
  obtain ⟨r, hr⟩ := session_steps_defined cramerSystem testODE.toLinearODE
    testODE_keepsShape (testStart 0 0 0 0) (testStart_session cramerSystem) 3
  obtain ⟨hs, hc⟩ := steps_session cramerSystem testODE.toLinearODE (testStart 0 0 0 0)
    (testStart_session cramerSystem) 3 r hr
  obtain ⟨A, hA, _⟩ := (session_valid cramerSystem testODE.toLinearODE testODE_keepsShape
    r.1 hs).A_alloc
  have h2 : 2 ≤ r.1.stepCount := by rw [hc]; decide
  exact ⟨testODE_keepsShape, r, A, hr, hs, hA, h2,
    (cached_factorization_valid cramerSystem testODE.toLinearODE testODE_keepsShape r.1 hs
      A hA).2.1 h2⟩

/-! ## C18 — time and counter bookkeeping -/

/-- C18. Every `step` that returns, in whatever regime, has increased the step counter by
`1` and `t` by `h` and left `h` alone; in a valid session every `step` returns; and after
`set_t0(t0)` and `n` consecutive steps the counter is `n` and `t = t0 + n·h`. -/
theorem bdf_bookkeeping (S : BandedSystem) (myODE : LinearODE) (s : BDFIntegrator)
    (hv : s.Valid myODE) (t0 : ℚ) (n : Nat) :
    (∀ (s' : BDFIntegrator) (r : BDFIntegrator × List Call), s'.step S myODE = some r →
      r.1.stepCount = s'.stepCount + 1 ∧ r.1.t = s'.t + s'.h ∧ r.1.h = s'.h) ∧
    (∃ r, s.step S myODE = some r ∧ r.1.stepCount = s.stepCount + 1 ∧
      r.1.t = s.t + s.h ∧ r.1.h = s.h) ∧
    (∃ r, BDFIntegrator.steps S myODE n (s.set_t0 t0) = some r ∧ r.1.stepCount = n ∧
      r.1.t = t0 + n * s.h ∧ r.1.h = s.h) := by
  refine ⟨?_, ?_, ?_⟩
  · intro s' r hr
    obtain ⟨h1, h2, h3, _⟩ := step_bookkeeping S myODE s' r hr
    exact ⟨h1, h2, h3⟩
  · obtain ⟨r, hr, _⟩ := step_summary S myODE s hv
    obtain ⟨h1, h2, h3, _⟩ := step_bookkeeping S myODE s r hr
    exact ⟨r, hr, h1, h2, h3⟩
  · obtain ⟨r, hr, _, hc, _, hh, _, _, ht, _⟩ :=
      steps_summary S myODE (s.set_t0 t0) (valid_set_t0 myODE s hv t0) rfl n
    exact ⟨r, hr, hc, ht, hh⟩

/-- C18, at the integrator of the test fixture with the Cramer solver: `set_t0(2)` and
four steps. -/
theorem bdf_bookkeeping_witness :
    (testStart 0 0 0 0).Valid testODE.toLinearODE ∧
      ∃ r, BDFIntegrator.steps cramerSystem testODE.toLinearODE 4
            ((testStart 0 0 0 0).set_t0 2) = some r ∧
        r.1.stepCount = 4 ∧ r.1.t = 2 + (4 : Nat) * (testStart 0 0 0 0).h :=
  ⟨testStart_valid 0 0 0 0,
    (bdf_bookkeeping cramerSystem testODE.toLinearODE (testStart 0 0 0 0)
      (testStart_valid 0 0 0 0) 2 4).2.2.imp fun _ h => ⟨h.1, h.2.1, h.2.2.1⟩⟩

/-! ## C19 — history independence of the Init step -/


/-- Unfolding of `steps` at the first step. -/
theorem steps_succ_left (S : BandedSystem) (myODE : LinearODE) (n : Nat)
    (s : BDFIntegrator) :
    BDFIntegrator.steps S myODE (n + 1) s =
      (s.step S myODE).bind fun r =>
        (BDFIntegrator.steps S myODE n r.1).map fun R => (R.1, r.2 ++ R.2) := by
  induction n with
  | zero =>
    simp only [BDFIntegrator.steps, Option.some_bind]
    cases s.step S myODE <;> simp
  | succ k ih =>
    rw [BDFIntegrator.steps, ih]
    cases hs : s.step S myODE with
    | none => simp
    | some r =>
      simp only [Option.some_bind]
      rw [BDFIntegrator.steps]
      cases hk : BDFIntegrator.steps S myODE k r.1 with
      | none => simp
      | some R =>
        simp only [Option.map_some', Option.some_bind]
        cases R.1.step S myODE <;> simp [List.append_assoc]

/-- C19. Two integrators with step counter `0` that agree on `y`, `t`, `h`, the sizes and
on what the collaborator returns, and differ arbitrarily in the stale `yprev`, `p` and the
content of `LU`, `A` and `c`, make the same step — the same new state and the same calls —
and hence the same `n ≥ 1` consecutive steps, for every band solver. -/
theorem init_step_history_independent (S : BandedSystem) (myODE : LinearODE)
    (s1 s2 : BDFIntegrator) (h : SameInputs myODE s1 s2) :
    s1.step S myODE = s2.step S myODE ∧
      ∀ n, 1 ≤ n → BDFIntegrator.steps S myODE n s1 = BDFIntegrator.steps S myODE n s2 := by
  have hstep : s1.step S myODE = s2.step S myODE := by
    obtain ⟨hI, hu, hl, h1, h2, A1, A2, LU1, LU2, hA1, hA2, hL1, hL2, e1, e2, e3, e4, e5, e6,
      hgA, hgN, hgC⟩ := h
    have hcopy : BandCopy (myODE.get_A A1) LU1 s1.upper_bw s1.lower_bw
        = BandCopy (myODE.get_A A1) LU2 s1.upper_bw s1.lower_bw := by
      have := BandCopy_target (myODE.get_A A1) LU1 LU2 (hgN.trans e1.symm)
        (e1.trans e4.symm) (e2.trans e5.symm) (e3.trans e6.symm)
      rw [e2, e3] at this
      exact this
    obtain ⟨I1, a1, l1, p1, c1, u1, w1, yp1, cc1⟩ := s1
    obtain ⟨I2, a2, l2, p2, c2, u2, w2, yp2, cc2⟩ := s2
    dsimp only at hI hu hl h1 h2 hA1 hA2 hL1 hL2 hgC hcopy
    subst hI hu hl h1 h2 hA1 hA2 hL1 hL2
    unfold BDFIntegrator.step
    dsimp only
    rw [if_pos rfl, if_pos rfl, ← hgA, ← hgC, hcopy]
  refine ⟨hstep, ?_⟩
  intro n hn
  obtain ⟨k, rfl⟩ : ∃ k, n = k + 1 := ⟨n - 1, by omega⟩
  rw [steps_succ_left, steps_succ_left, hstep]

theorem testStart_sameInputs :
    SameInputs testODE.toLinearODE (testStart 0 0 0 0) testStartStale :=
  ⟨rfl, rfl, rfl, rfl, rfl, sdBandMatrix.alloc 5 1 1, _, sdBandMatrix.alloc 5 1 1, _,
    rfl, rfl, rfl, rfl, rfl, rfl, rfl, rfl, rfl, rfl, rfl, rfl, rfl⟩

/-- C19, at the integrator of the test and a copy of it with stale buffers. -/
theorem init_step_history_independent_witness :
    SameInputs testODE.toLinearODE (testStart 0 0 0 0) testStartStale ∧
      (testStart 0 0 0 0).yprev ≠ testStartStale.yprev ∧
      (testStart 0 0 0 0).step cramerSystem testODE.toLinearODE
        = testStartStale.step cramerSystem testODE.toLinearODE :=
  ⟨testStart_sameInputs, by decide!,
    (init_step_history_independent cramerSystem testODE.toLinearODE (testStart 0 0 0 0)
      testStartStale testStart_sameInputs).1⟩

/-! ## C20 — the frame of `set_size` -/

/-- A step with `stepCount ≠ 0` that returns has made no call to the collaborator and has
kept `A` and `c`. -/
theorem step_no_query (S : BandedSystem) (myODE : LinearODE) (s : BDFIntegrator)
    (r : BDFIntegrator × List Call) (h0 : s.stepCount ≠ 0) (h : s.step S myODE = some r) :
    r.2.countP Call.isGetA = 0 ∧ r.2.countP Call.isGetC = 0 ∧ r.1.A = s.A ∧ r.1.c = s.c := by
  unfold BDFIntegrator.step at h
  split at h
  · rename_i A LU hA hLU
    rw [if_neg h0] at h
    dsimp only at h
    obtain ⟨F, hF, h⟩ := Option.bind_eq_some.mp h
    obtain ⟨rhs, _, h⟩ := Option.bind_eq_some.mp h
    cases h
    have hF2 : F.2 = [] ∨ ∃ M, F.2 = [Call.BandGBTRF M] := by
      split at hF
      · obtain ⟨M, _, hM⟩ := Option.map_eq_some'.mp hF
        exact Or.inr ⟨M, by rw [← hM]⟩
      · cases hF
        exact Or.inl rfl
    refine ⟨?_, ?_, hA.symm ▸ rfl, rfl⟩
    · rcases hF2 with e | ⟨M, e⟩ <;> simp [e, Call.isGetA, List.countP_cons]
    · rcases hF2 with e | ⟨M, e⟩ <;> simp [e, Call.isGetC, List.countP_cons]
  · cases h

/-- C20. `set_size(N, upper_bw, lower_bw)` records its three arguments, replaces `A` and
`LU` by fresh band matrices of that shape and resizes the pivots to `N`; the step counter,
`t`, `h`, `y`, `yprev` and `c` keep their values.  So, unlike `set_y0`, `set_t0` and
`set_dt`, it does not return the integrator to the Init regime: after steps were taken, the
next `step` does not query the collaborator and keeps the stale `c` and the fresh `A`. -/
theorem set_size_frame (s : BDFIntegrator) (N_in upper_in lower_in : Nat) :
    (s.set_size N_in upper_in lower_in).A
        = some (sdBandMatrix.alloc N_in upper_in lower_in) ∧
    (s.set_size N_in upper_in lower_in).LU
        = some (sdBandMatrix.alloc N_in upper_in lower_in) ∧
    (sdBandMatrix.alloc N_in upper_in lower_in).N = N_in ∧
    (sdBandMatrix.alloc N_in upper_in lower_in).upper_bw = upper_in ∧
    (sdBandMatrix.alloc N_in upper_in lower_in).lower_bw = lower_in ∧
    (s.set_size N_in upper_in lower_in).p.length = N_in ∧
    (s.set_size N_in upper_in lower_in).N = N_in ∧
    (s.set_size N_in upper_in lower_in).upper_bw = upper_in ∧
    (s.set_size N_in upper_in lower_in).lower_bw = lower_in ∧
    (s.set_size N_in upper_in lower_in).stepCount = s.stepCount ∧
    (s.set_size N_in upper_in lower_in).t = s.t ∧
    (s.set_size N_in upper_in lower_in).h = s.h ∧
    (s.set_size N_in upper_in lower_in).y = s.y ∧
    (s.set_size N_in upper_in lower_in).yprev = s.yprev ∧
    (s.set_size N_in upper_in lower_in).c = s.c ∧
    (∀ (y0 : dvector) (t0 h : ℚ),
      (s.set_y0 y0).stepCount = 0 ∧ (s.set_t0 t0).stepCount = 0 ∧
        (s.set_dt h).stepCount = 0) ∧
    (s.stepCount ≠ 0 → ∀ (S : BandedSystem) (myODE : LinearODE)
      (r : BDFIntegrator × List Call),
      (s.set_size N_in upper_in lower_in).step S myODE = some r →
        r.2.countP Call.isGetA = 0 ∧ r.2.countP Call.isGetC = 0 ∧ r.1.c = s.c ∧
        r.1.A = some (sdBandMatrix.alloc N_in upper_in lower_in) ∧
        r.1.stepCount = s.stepCount + 1) := by
  refine ⟨rfl, rfl, rfl, rfl, rfl, ?_, rfl, rfl, rfl, rfl, rfl, rfl, rfl, rfl, rfl,
    fun _ _ _ => ⟨rfl, rfl, rfl⟩, ?_⟩
  · show (s.p.take N_in ++ List.replicate (N_in - s.p.length) 0).length = N_in
    rw [List.length_append, List.length_take, List.length_replicate]
    omega
  · intro h0 S myODE r hr
    obtain ⟨h1, h2, h3, h4⟩ :=
      step_no_query S myODE (s.set_size N_in upper_in lower_in) r h0 hr
    exact ⟨h1, h2, h4, h3, (step_bookkeeping S myODE _ r hr).1⟩

/-- C20, with a hypothesis discharged: `set_size` on the integrator `exampleSteady`, which
has taken two steps, leaves the step counter at `2`. -/
theorem set_size_frame_witness :
    exampleSteady.stepCount ≠ 0 ∧ (exampleSteady.set_size 2 1 1).stepCount = 2 ∧
      (exampleSteady.set_size 2 1 1).c = [1, 0] :=
  ⟨by decide, (set_size_frame exampleSteady 2 1 1).2.2.2.2.2.2.2.2.2.1,
    (set_size_frame exampleSteady 2 1 1).2.2.2.2.2.2.2.2.2.2.2.2.2.2.1⟩

end Ember
